import Mathlib

/-!
Verification of `internal/byteutil` (EAX / OCB helper primitives)

A shallow embedding of `src/internal/byteutil/byteutil.go`.

Go slices are views into shared backing storage, so the embedding keeps an
explicit heap: a flat list of bytes, with a slice being a triple
`(ptr, len, cap)` into it.  Bytes are natural numbers below 256 and every
byte operation that can overflow is reduced modulo 256.  A Go run-time panic
(index out of range, explicit `panic`) is the `fault` outcome, which carries
the heap as it stood when the panic happened.
-/

set_option autoImplicit false

namespace Byteutil

/-! ## Heap, slices, outcomes -/

/-- The heap: a flat sequence of bytes. -/
abbrev Mem := List Nat

/-- A Go slice header: start address, length and capacity. -/
structure Slice where
  ptr : Nat
  len : Nat
  cap : Nat
  deriving DecidableEq, Repr

/-- Outcome of running a function: normal return with the final heap and a
value, or a panic with the heap at the moment of the panic. -/
inductive Res (α : Type) where
  | ok (m : Mem) (v : α)
  | fault (m : Mem)
  deriving DecidableEq, Repr

/-- Every cell of the heap holds a byte. -/
def MemBytes (m : Mem) : Prop := ∀ x ∈ m, x < 256

instance (m : Mem) : Decidable (MemBytes m) := by
  unfold MemBytes; infer_instance

/-- The slice lies inside the heap and its length does not exceed its capacity. -/
def Slice.valid (s : Slice) (m : Mem) : Prop :=
  s.len ≤ s.cap ∧ s.ptr + s.cap ≤ m.length

instance (s : Slice) (m : Mem) : Decidable (s.valid m) := by
  unfold Slice.valid; infer_instance

/-- Two slices occupy separate storage (their `len` windows do not overlap). -/
def Slice.separate (s t : Slice) : Prop :=
  s.ptr + s.len ≤ t.ptr ∨ t.ptr + t.len ≤ s.ptr

instance (s t : Slice) : Decidable (s.separate t) := by
  unfold Slice.separate; infer_instance

/-- The contents of a slice: the `len` bytes starting at `ptr`. -/
def Slice.bytes (s : Slice) (m : Mem) : List Nat :=
  (m.drop s.ptr).take s.len

/-- Indexed read `s[i]`; `none` is the index-out-of-range panic. -/
def Slice.get (s : Slice) (m : Mem) (i : Nat) : Option Nat :=
  if i < s.len then m[s.ptr + i]? else none

/-- Indexed write `s[i] = v`; `none` is the index-out-of-range panic. -/
def Slice.set (s : Slice) (m : Mem) (i : Nat) (v : Nat) : Option Mem :=
  if i < s.len ∧ s.ptr + i < m.length then some (m.set (s.ptr + i) v) else none

/-- Indexed read with a signed Go `int` index. -/
def Slice.getI (s : Slice) (m : Mem) (i : Int) : Option Nat :=
  if 0 ≤ i then s.get m i.toNat else none

/-- Indexed write with a signed Go `int` index. -/
def Slice.setI (s : Slice) (m : Mem) (i : Int) (v : Nat) : Option Mem :=
  if 0 ≤ i then s.set m i.toNat v else none

/-- Go builtin `make([]byte, n)`: fresh zeroed storage placed after everything
allocated so far, with `len = cap = n`. -/
def make (m : Mem) (n : Nat) : Mem × Slice :=
  (m ++ List.replicate n 0, { ptr := m.length, len := n, cap := n })

/-- Overwrite the cells from address `a` on with `bs`. -/
def Mem.write (m : Mem) (a : Nat) (bs : List Nat) : Mem :=
  m.take a ++ bs ++ m.drop (a + bs.length)

/-- Go builtin `copy(dst, src)`: copies `min(len(dst), len(src))` bytes, with
`memmove` semantics (the source bytes are read before any is written). -/
def copy (m : Mem) (dst src : Slice) : Mem :=
  Mem.write m dst.ptr ((src.bytes m).take dst.len)

/-- Go standard library `crypto/subtle.ConstantTimeSelect(v, x, y int) int`,
whose body is `^(v-1)&x | (v-1)&y`, on 64-bit two's-complement `int`s
represented by their residues modulo `2^64`. -/
def ConstantTimeSelect (v x y : Nat) : Nat :=
  let vm1 := (v + (2 ^ 64 - 1)) % 2 ^ 64
  let nvm1 := vm1 ^^^ (2 ^ 64 - 1)
  (nvm1 &&& x) ||| (vm1 &&& y)

/-! ## `shiftLeft` -/

/-- The loop of `shiftLeft`, `for i := len(src)-1; i >= 0; i--`.  The first
numeric argument is `i + 1`; `b` is the carry variable. -/
def shiftLeft.loop (dst src : Slice) : Nat → Mem → Nat → Res Nat
  | 0, m, b => .ok m b
  | i + 1, m, b =>
    match src.get m i with
    | none => .fault m
    | some x =>
      -- bit = src[i] >> 7 ; dst[i] = src[i]<<1 | b ; b = bit
      match dst.set m i (((x <<< 1) % 256) ||| b) with
      | none => .fault m
      | some m1 => shiftLeft.loop dst src i m1 (x >>> 7)

/-- Go `shiftLeft(dst, src []byte) int`. -/
def shiftLeft (m : Mem) (dst src : Slice) : Res Nat :=
  shiftLeft.loop dst src src.len m 0

/-! ## `GfnDouble` -/

/-- The `switch len(input)` of `GfnDouble`: the polynomial bytes `p`, or
`none` for the `default: panic(...)` arm. -/
def GfnDouble.poly (n : Nat) : Option (List Nat) :=
  if n = 8 then some [0x1B]
  else if n = 16 then some [0x87]
  else if n = 32 then some [4, 0x25]
  else if n = 64 then some [1, 0x25]
  else if n = 128 then some [8, 0, 0x43]
  else none

/-- The loop `for i := 0; i < len(p); i++` of `GfnDouble`, with `off` =
`len(input)-len(p)`; the list argument is `p[i:]`. -/
def GfnDouble.loop (shifted : Slice) (off v : Nat) : List Nat → Nat → Mem → Res Unit
  | [], _, m => .ok m ()
  | pi :: ps, i, m =>
    -- shifted[off+i] ^= byte(subtle.ConstantTimeSelect(v, int(p[i]), 0))
    match shifted.get m (off + i) with
    | none => .fault m
    | some x =>
      match shifted.set m (off + i) (x ^^^ (ConstantTimeSelect v pi 0 % 256)) with
      | none => .fault m
      | some m1 => GfnDouble.loop shifted off v ps (i + 1) m1

/-- Go `GfnDouble(input []byte) []byte`. -/
def GfnDouble (m : Mem) (input : Slice) : Res Slice :=
  match GfnDouble.poly input.len with
  | none => .fault m
  | some p =>
    let (m1, shifted) := make m input.len
    match shiftLeft m1 shifted input with
    | .fault m2 => .fault m2
    | .ok m2 v =>
      match GfnDouble.loop shifted (input.len - p.length) v p 0 m2 with
      | .fault m3 => .fault m3
      | .ok m3 _ => .ok m3 shifted

/-! ## XOR helpers -/

/-- The loop of `XorBytesMut`; the first numeric argument counts the
iterations left, the second is `i`. -/
def XorBytesMut.loop (X Y : Slice) : Nat → Nat → Mem → Res Unit
  | 0, _, m => .ok m ()
  | n + 1, i, m =>
    -- X[i] ^= Y[i]
    match X.get m i, Y.get m i with
    | some x, some y =>
      match X.set m i (x ^^^ y) with
      | none => .fault m
      | some m1 => XorBytesMut.loop X Y n (i + 1) m1
    | _, _ => .fault m

/-- Go `XorBytesMut(X, Y []byte)`. -/
def XorBytesMut (m : Mem) (X Y : Slice) : Res Unit :=
  XorBytesMut.loop X Y Y.len 0 m

/-- The loop of `XorBytes`; the first numeric argument counts the iterations
left, the second is `i`. -/
def XorBytes.loop (Z X Y : Slice) : Nat → Nat → Mem → Res Unit
  | 0, _, m => .ok m ()
  | n + 1, i, m =>
    -- Z[i] = X[i] ^ Y[i]
    match X.get m i, Y.get m i with
    | some x, some y =>
      match Z.set m i (x ^^^ y) with
      | none => .fault m
      | some m1 => XorBytes.loop Z X Y n (i + 1) m1
    | _, _ => .fault m

/-- Go `XorBytes(Z, X, Y []byte)`. -/
def XorBytes (m : Mem) (Z X Y : Slice) : Res Unit :=
  XorBytes.loop Z X Y Y.len 0 m

/-- The loop of `RightXor`; `offset` is the signed `len(X) - len(Y)`. -/
def RightXor.loop (xored Y : Slice) (offset : Int) : Nat → Nat → Mem → Res Unit
  | 0, _, m => .ok m ()
  | n + 1, i, m =>
    -- xored[offset+i] ^= Y[i]
    match xored.getI m (offset + i), Y.get m i with
    | some x, some y =>
      match xored.setI m (offset + i) (x ^^^ y) with
      | none => .fault m
      | some m1 => RightXor.loop xored Y offset n (i + 1) m1
    | _, _ => .fault m

/-- Go `RightXor(X, Y []byte) []byte`. -/
def RightXor (m : Mem) (X Y : Slice) : Res Slice :=
  let offset : Int := (X.len : Int) - (Y.len : Int)
  let (m1, xored) := make m X.len
  let m2 := copy m1 xored X
  match RightXor.loop xored Y offset Y.len 0 m2 with
  | .fault m3 => .fault m3
  | .ok m3 _ => .ok m3 xored

/-! ## `SliceForAppend` -/

/-- Reduction of an integer to a 64-bit two's-complement Go `int`: the
representative of `x` modulo `2^64` in `[-2^63, 2^63)`. -/
def wrapInt (x : Int) : Int :=
  (x + 2 ^ 63) % 2 ^ 64 - 2 ^ 63

/-- Go `SliceForAppend(in []byte, n int) (head, tail []byte)`.  The sum
`len(in) + n` is a 64-bit `int` addition and wraps around.  The slice
expressions `in[:total]` and `head[len(in):]` panic when their bound is out of
range. -/
def SliceForAppend (m : Mem) (inp : Slice) (n : Int) : Res (Slice × Slice) :=
  let total : Int := wrapInt ((inp.len : Int) + n)
  if total ≤ (inp.cap : Int) then
    -- head = in[:total]
    if total < 0 then .fault m
    else
      let head : Slice := { ptr := inp.ptr, len := total.toNat, cap := inp.cap }
      -- tail = head[len(in):]
      if inp.len ≤ head.len then
        .ok m (head, { ptr := head.ptr + inp.len, len := head.len - inp.len,
                       cap := head.cap - inp.len })
      else .fault m
  else
    -- head = make([]byte, total) ; copy(head, in)
    let (m1, head) := make m total.toNat
    let m2 := copy m1 head inp
    -- tail = head[len(in):]
    if inp.len ≤ head.len then
      .ok m2 (head, { ptr := head.ptr + inp.len, len := head.len - inp.len,
                      cap := head.cap - inp.len })
    else .fault m2

/-! ## Instrumented execution of `GfnDouble`

The same code once more, this time also recording what an observer of the
control flow and of the memory accesses sees: every conditional jump of the
source (a loop test, the `switch`) and every indexed read or write of a
buffer emits an event, in program order.  Arithmetic on values, including the
branch-free body of `subtle.ConstantTimeSelect`, emits nothing. -/

/-- The buffers `GfnDouble` touches. -/
inductive Buf where
  | input
  | shifted
  | poly
  deriving DecidableEq, Repr

/-- An observable step: the outcome of a loop test, the arm taken by the
`switch`, or an indexed access to a buffer. -/
inductive Event where
  | test (taken : Bool)
  | arm (k : Nat)
  | read (b : Buf) (i : Nat)
  | write (b : Buf) (i : Nat)
  deriving DecidableEq, Repr

/-- The loop of `shiftLeft` with its events; `dn` and `sn` name the buffers
passed as `dst` and `src`. -/
def shiftLeft.loopT (dn sn : Buf) (dst src : Slice) : Nat → Mem → Nat → Res Nat × List Event
  | 0, m, b => (.ok m b, [.test false])
  | i + 1, m, b =>
    -- bit = src[i] >> 7
    match src.get m i with
    | none => (.fault m, [.test true, .read sn i])
    | some x =>
      -- dst[i] = src[i]<<1 | b ; b = bit
      match dst.set m i (((x <<< 1) % 256) ||| b) with
      | none => (.fault m, [.test true, .read sn i, .read sn i, .write dn i])
      | some m1 =>
        ((shiftLeft.loopT dn sn dst src i m1 (x >>> 7)).1,
          .test true :: .read sn i :: .read sn i :: .write dn i ::
            (shiftLeft.loopT dn sn dst src i m1 (x >>> 7)).2)

/-- Go `shiftLeft(dst, src []byte) int`, with its events. -/
def shiftLeftT (dn sn : Buf) (m : Mem) (dst src : Slice) : Res Nat × List Event :=
  shiftLeft.loopT dn sn dst src src.len m 0

/-- The arm of `switch len(input)` that is taken (5 is `default`). -/
def GfnDouble.arm (n : Nat) : Nat :=
  if n = 8 then 0
  else if n = 16 then 1
  else if n = 32 then 2
  else if n = 64 then 3
  else if n = 128 then 4
  else 5

/-- The polynomial loop of `GfnDouble` with its events. -/
def GfnDouble.loopT (shifted : Slice) (off v : Nat) :
    List Nat → Nat → Mem → Res Unit × List Event
  | [], _, m => (.ok m (), [.test false])
  | pi :: ps, i, m =>
    -- shifted[off+i] ^= byte(subtle.ConstantTimeSelect(v, int(p[i]), 0))
    match shifted.get m (off + i) with
    | none => (.fault m, [.test true, .read .poly i, .read .shifted (off + i)])
    | some x =>
      match shifted.set m (off + i) (x ^^^ (ConstantTimeSelect v pi 0 % 256)) with
      | none =>
        (.fault m, [.test true, .read .poly i, .read .shifted (off + i),
          .write .shifted (off + i)])
      | some m1 =>
        ((GfnDouble.loopT shifted off v ps (i + 1) m1).1,
          .test true :: .read .poly i :: .read .shifted (off + i) ::
            .write .shifted (off + i) :: (GfnDouble.loopT shifted off v ps (i + 1) m1).2)

/-- Go `GfnDouble(input []byte) []byte`, with its events. -/
def GfnDoubleT (m : Mem) (input : Slice) : Res Slice × List Event :=
  match GfnDouble.poly input.len with
  | none => (.fault m, [.arm (GfnDouble.arm input.len)])
  | some p =>
    let (m1, shifted) := make m input.len
    match shiftLeftT .shifted .input m1 shifted input with
    | (.fault m2, t1) => (.fault m2, .arm (GfnDouble.arm input.len) :: t1)
    | (.ok m2 v, t1) =>
      match GfnDouble.loopT shifted (input.len - p.length) v p 0 m2 with
      | (.fault m3, t2) => (.fault m3, .arm (GfnDouble.arm input.len) :: (t1 ++ t2))
      | (.ok m3 _, t2) => (.ok m3 shifted, .arm (GfnDouble.arm input.len) :: (t1 ++ t2))

/-! ## Reference notions used to state the properties -/

/-- The events of the loop of `shiftLeft` as a function of the number of
iterations alone. -/
def shiftLeft.trace (dn sn : Buf) : Nat → List Event
  | 0 => [.test false]
  | i + 1 => .test true :: .read sn i :: .read sn i :: .write dn i :: shiftLeft.trace dn sn i

/-- The events of the polynomial loop as a function of the offset, the number
of iterations left and the index alone. -/
def GfnDouble.polyTrace (off : Nat) : Nat → Nat → List Event
  | 0, _ => [.test false]
  | n + 1, i =>
    .test true :: .read .poly i :: .read .shifted (off + i) :: .write .shifted (off + i) ::
      GfnDouble.polyTrace off n (i + 1)

/-- The events of `GfnDouble` as a function of `len(input)` alone. -/
def GfnDouble.trace (L : Nat) : List Event :=
  match GfnDouble.poly L with
  | none => [.arm (GfnDouble.arm L)]
  | some p =>
    .arm (GfnDouble.arm L) ::
      (shiftLeft.trace .shifted .input L ++ GfnDouble.polyTrace (L - p.length) p.length 0)


/-- Big-endian value of a byte string. -/
def val : List Nat → Nat
  | [] => 0
  | x :: xs => x * 256 ^ xs.length + val xs

/-- Byte-wise XOR of two byte strings. -/
def xorBytes (a b : List Nat) : List Nat :=
  List.zipWith (fun x y => x ^^^ y) a b

/-- Low-order part of the field polynomial, as a number, for a buffer of
`L` bytes. -/
def fieldPoly (L : Nat) : Nat :=
  if L = 8 then 0x1B
  else if L = 16 then 0x87
  else if L = 32 then 0x0425
  else if L = 64 then 0x0125
  else if L = 128 then 0x080043
  else 0

/-- The supported buffer lengths of `GfnDouble`. -/
def supported (L : Nat) : Prop :=
  L = 8 ∨ L = 16 ∨ L = 32 ∨ L = 64 ∨ L = 128

instance (L : Nat) : Decidable (supported L) := by
  unfold supported; infer_instance

/-- Reference left shift by one bit of a big-endian byte string: the shifted
string and the bit shifted out of the most significant position. -/
def shl1 : List Nat → List Nat × Nat
  | [] => ([], 0)
  | x :: xs => ((((x <<< 1) % 256) ||| (shl1 xs).2) :: (shl1 xs).1, x >>> 7)

/-- XOR the bytes `p` into the low-order (rightmost) end of `s`. -/
def xorLow (s p : List Nat) : List Nat :=
  s.take (s.length - p.length) ++ xorBytes (s.drop (s.length - p.length)) p

/-- Naive branching reference for doubling: shift left by one bit, then if
the carry-out is 1 XOR the polynomial bytes into the low-order end. -/
def GfnDouble_naive (input : List Nat) : Option (List Nat) :=
  match GfnDouble.poly input.length with
  | none => none
  | some p =>
    if (shl1 input).2 = 1 then some (xorLow (shl1 input).1 p)
    else some (shl1 input).1

/-- Parity of the eight bits of a byte (`true` for an odd number of ones). -/
def par8 (x : Nat) : Bool :=
  xor (x.testBit 0) (xor (x.testBit 1) (xor (x.testBit 2) (xor (x.testBit 3)
    (xor (x.testBit 4) (xor (x.testBit 5) (xor (x.testBit 6) (x.testBit 7)))))))

/-- Parity of the number of one bits of a byte string. -/
def parity : List Nat → Bool
  | [] => false
  | x :: xs => xor (par8 x) (parity xs)

/-! ## Basic facts about the heap -/

theorem shl1_length (l : List Nat) : (shl1 l).1.length = l.length := by
  induction l with
  | nil => rfl
  | cons x xs ih => simp [shl1, ih]

theorem shl1_carry (l : List Nat) : (shl1 l).2 = l.getD 0 0 >>> 7 := by
  cases l <;> simp [shl1]

theorem shl1_getD (l : List Nat) : ∀ k, k < l.length →
    (shl1 l).1.getD k 0 = ((l.getD k 0 <<< 1) % 256) ||| (l.getD (k + 1) 0 >>> 7) := by
  induction l with
  | nil => intro k hk; simp at hk
  | cons x xs ih =>
    intro k hk
    cases k with
    | zero => simp [shl1, shl1_carry]
    | succ k =>
      have := ih k (by simpa using hk)
      simpa [shl1] using this

theorem ext_getD (a b : List Nat) (hl : a.length = b.length)
    (h : ∀ k, k < a.length → a.getD k 0 = b.getD k 0) : a = b := by
  apply List.ext_getElem hl
  intro n h1 h2
  have := h n h1
  simpa [List.getD_eq_getElem?_getD, List.getElem?_eq_getElem h1, List.getElem?_eq_getElem h2] using this

theorem xorBytes_length (a b : List Nat) : (xorBytes a b).length = min a.length b.length := by
  simp [xorBytes]

theorem xorBytes_getD (a b : List Nat) (k : Nat) (ha : k < a.length) (hb : k < b.length) :
    (xorBytes a b).getD k 0 = a.getD k 0 ^^^ b.getD k 0 := by
  simp [xorBytes, List.getD_eq_getElem?_getD, List.getElem?_zipWith,
    List.getElem?_eq_getElem ha, List.getElem?_eq_getElem hb]

theorem xorLow_length (s p : List Nat) (h : p.length ≤ s.length) :
    (xorLow s p).length = s.length := by
  simp [xorLow, xorBytes]; omega

theorem xorLow_getD (s p : List Nat) (h : p.length ≤ s.length) (k : Nat) (hk : k < s.length) :
    (xorLow s p).getD k 0 =
      if k < s.length - p.length then s.getD k 0
      else s.getD k 0 ^^^ p.getD (k - (s.length - p.length)) 0 := by
  unfold xorLow
  by_cases hlt : k < s.length - p.length
  · rw [if_pos hlt]
    simp only [List.getD_eq_getElem?_getD]
    rw [List.getElem?_append_left (by simp; omega), List.getElem?_take, if_pos hlt]
  · rw [if_neg hlt]
    have h1 : List.length (List.take (s.length - p.length) s) = s.length - p.length := by
      simp
    rw [List.getD_eq_getElem?_getD, List.getElem?_append_right (by omega), h1,
      ← List.getD_eq_getElem?_getD, xorBytes_getD _ _ _ (by simp; omega) (by omega)]
    simp only [List.getD_eq_getElem?_getD, List.getElem?_drop]
    congr 3
    omega

theorem bytes_length (s : Slice) (m : Mem) (h : s.ptr + s.len ≤ m.length) :
    (s.bytes m).length = s.len := by
  simp [Slice.bytes]; omega

theorem bytes_getD (s : Slice) (m : Mem) (k : Nat) (hk : k < s.len) :
    (s.bytes m).getD k 0 = m.getD (s.ptr + k) 0 := by
  simp [Slice.bytes, List.getD_eq_getElem?_getD, List.getElem?_take, hk, List.getElem?_drop]

theorem getD_set (m : Mem) (a c v : Nat) (h : a < m.length) :
    (m.set a v).getD c 0 = if c = a then v else m.getD c 0 := by
  simp only [List.getD_eq_getElem?_getD, List.getElem?_set]
  by_cases hc : c = a
  · subst hc; simp [h]
  · have : ¬ a = c := fun e => hc e.symm
    simp [hc, this]

theorem Slice.get_ok (s : Slice) (m : Mem) (i : Nat) (hi : i < s.len)
    (hs : s.ptr + s.len ≤ m.length) : s.get m i = some (m.getD (s.ptr + i) 0) := by
  have h : s.ptr + i < m.length := by omega
  simp [Slice.get, hi, List.getD_eq_getElem?_getD, List.getElem?_eq_getElem h]

theorem Slice.set_ok (s : Slice) (m : Mem) (i v : Nat) (hi : i < s.len)
    (hs : s.ptr + s.len ≤ m.length) : s.set m i v = some (m.set (s.ptr + i) v) := by
  have h : s.ptr + i < m.length := by omega
  simp [Slice.set, hi, h]

theorem shiftLeft_loop_ok (dst src : Slice)
    (hsep : src.ptr ≤ dst.ptr ∨ dst.ptr + dst.len ≤ src.ptr) :
    ∀ (i : Nat) (m : Mem) (b : Nat), i ≤ src.len → i ≤ dst.len →
      src.ptr + src.len ≤ m.length → dst.ptr + dst.len ≤ m.length →
      ∃ m', shiftLeft.loop dst src i m b
            = .ok m' (if i = 0 then b else m.getD src.ptr 0 >>> 7) ∧
        m'.length = m.length ∧
        (∀ a, a < dst.ptr ∨ dst.ptr + i ≤ a → m'.getD a 0 = m.getD a 0) ∧
        (∀ k, k < i → m'.getD (dst.ptr + k) 0 =
            ((m.getD (src.ptr + k) 0 <<< 1) % 256) |||
              (if k + 1 < i then m.getD (src.ptr + (k + 1)) 0 >>> 7 else b)) := by
  intro i
  induction i with
  | zero =>
    intro m b _ _ _ _
    exact ⟨m, by simp [shiftLeft.loop], rfl, fun _ _ => rfl, fun k hk => absurd hk (Nat.not_lt_zero k)⟩
  | succ i ih =>
    intro m b hi1 hi2 hs hd
    have hlen : dst.ptr + i < m.length := by omega
    obtain ⟨m', hrun, hl, hframe, hval⟩ :=
      ih (m.set (dst.ptr + i) (((m.getD (src.ptr + i) 0 <<< 1) % 256) ||| b))
        (m.getD (src.ptr + i) 0 >>> 7) (by omega) (by omega)
        (by simpa using hs) (by simpa using hd)
    refine ⟨m', ?_, ?_, ?_, ?_⟩
    · simp only [shiftLeft.loop, Slice.get_ok src m i (by omega) hs,
        Slice.set_ok dst m i _ (by omega) hd, hrun]
      by_cases h0 : i = 0
      · subst h0; simp
      · have : ¬ src.ptr = dst.ptr + i := by omega
        rw [if_neg h0, if_neg (Nat.succ_ne_zero i), getD_set _ _ _ _ hlen, if_neg this]
    · simpa using hl
    · intro a ha
      rw [hframe a (by omega), getD_set _ _ _ _ hlen, if_neg (by omega)]
    · intro k hk
      by_cases hki : k = i
      · subst hki
        rw [hframe _ (by omega), getD_set _ _ _ _ hlen]
        simp
      · have hk' : k < i := by omega
        rw [hval k hk', getD_set _ _ _ _ hlen, if_neg (by omega)]
        by_cases hk1 : k + 1 < i
        · rw [if_pos hk1, if_pos (by omega), getD_set _ _ _ _ hlen, if_neg (by omega)]
        · have : k + 1 = i := by omega
          subst this
          simp

theorem cts_one (x : Nat) (hx : x < 2 ^ 64) : ConstantTimeSelect 1 x 0 = x := by
  have h1 : (1 + (2 ^ 64 - 1)) % 2 ^ 64 = 0 := by norm_num
  have h2 : (2 ^ 64 - 1) &&& x = x := by
    rw [Nat.and_comm, Nat.and_pow_two_sub_one_eq_mod, Nat.mod_eq_of_lt hx]
  simp only [ConstantTimeSelect, h1, Nat.zero_xor, h2, Nat.and_zero, Nat.or_zero]

theorem cts_zero (x : Nat) : ConstantTimeSelect 0 x 0 = 0 := by
  have h1 : (0 + (2 ^ 64 - 1)) % 2 ^ 64 = 2 ^ 64 - 1 := by norm_num
  simp only [ConstantTimeSelect, h1, Nat.xor_self, Nat.zero_and, Nat.and_zero, Nat.or_zero]

theorem GfnDouble_loop_ok (shifted : Slice) (off v : Nat) :
    ∀ (ps : List Nat) (i : Nat) (m : Mem), off + i + ps.length ≤ shifted.len →
      shifted.ptr + shifted.len ≤ m.length →
      ∃ m', GfnDouble.loop shifted off v ps i m = .ok m' () ∧
        m'.length = m.length ∧
        (∀ a, a < shifted.ptr + (off + i) ∨ shifted.ptr + (off + i) + ps.length ≤ a →
          m'.getD a 0 = m.getD a 0) ∧
        (∀ j, j < ps.length → m'.getD (shifted.ptr + (off + i) + j) 0 =
          m.getD (shifted.ptr + (off + i) + j) 0 ^^^
            (ConstantTimeSelect v (ps.getD j 0) 0 % 256)) := by
  intro ps
  induction ps with
  | nil =>
    intro i m _ _
    exact ⟨m, rfl, rfl, fun _ _ => rfl, fun j hj => absurd hj (Nat.not_lt_zero j)⟩
  | cons q ps ih =>
    intro i m hi hm
    have hlen : shifted.ptr + (off + i) < m.length := by simp at hi; omega
    have hil : off + i < shifted.len := by simp at hi; omega
    obtain ⟨m', hrun, hl, hframe, hval⟩ :=
      ih (i + 1) (m.set (shifted.ptr + (off + i))
        (m.getD (shifted.ptr + (off + i)) 0 ^^^ (ConstantTimeSelect v q 0 % 256)))
        (by simp at hi; omega) (by simpa using hm)
    refine ⟨m', ?_, ?_, ?_, ?_⟩
    · simp only [GfnDouble.loop, Slice.get_ok shifted m _ hil hm,
        Slice.set_ok shifted m _ _ hil hm, hrun]
    · simpa using hl
    · intro a ha
      rw [hframe a (by simp at ha; omega), getD_set _ _ _ _ hlen, if_neg (by simp at ha; omega)]
    · intro j hj
      cases j with
      | zero =>
        rw [Nat.add_zero, hframe _ (by omega), getD_set _ _ _ _ hlen, if_pos rfl]
        simp
      | succ j =>
        have h := hval j (by simpa using hj)
        have e : shifted.ptr + (off + (i + 1)) + j = shifted.ptr + (off + i) + (j + 1) := by omega
        rw [e, getD_set _ _ _ _ hlen, if_neg (by omega)] at h
        rw [h]
        simp

theorem getD_append_left (a b : List Nat) (k : Nat) (h : k < a.length) :
    (a ++ b).getD k 0 = a.getD k 0 := by
  simp only [List.getD_eq_getElem?_getD, List.getElem?_append_left h]

theorem getD_append_right (a b : List Nat) (k : Nat) :
    (a ++ b).getD (a.length + k) 0 = b.getD k 0 := by
  simp only [List.getD_eq_getElem?_getD]
  rw [List.getElem?_append_right (by omega)]
  congr 2; omega

theorem getD_ge (a : List Nat) (k : Nat) (h : a.length ≤ k) : a.getD k 0 = 0 := by
  simp [List.getD_eq_getElem?_getD, List.getElem?_eq_none h]

theorem shiftLeft_ok (m : Mem) (dst src : Slice)
    (hsep : src.ptr ≤ dst.ptr ∨ dst.ptr + dst.len ≤ src.ptr) (hlen : dst.len = src.len)
    (hs : src.ptr + src.len ≤ m.length) (hd : dst.ptr + dst.len ≤ m.length) :
    ∃ m', shiftLeft m dst src = .ok m' ((src.bytes m).getD 0 0 >>> 7) ∧
      m'.length = m.length ∧
      (∀ a, a < dst.ptr ∨ dst.ptr + dst.len ≤ a → m'.getD a 0 = m.getD a 0) ∧
      dst.bytes m' = (shl1 (src.bytes m)).1 := by
  obtain ⟨m', hrun, hl, hframe, hval⟩ :=
    shiftLeft_loop_ok dst src hsep src.len m 0 (Nat.le_refl _) (by omega) hs hd
  refine ⟨m', ?_, hl, ?_, ?_⟩
  · rw [shiftLeft, hrun]
    by_cases h0 : src.len = 0
    · rw [if_pos h0, getD_ge _ _ (by rw [bytes_length src m hs]; omega)]
      rfl
    · rw [if_neg h0, bytes_getD src m 0 (by omega)]
      rfl
  · intro a ha
    exact hframe a (by omega)
  · apply ext_getD
    · rw [bytes_length dst m' (by omega), shl1_length, bytes_length src m hs, hlen]
    · intro k hk
      rw [bytes_length dst m' (by omega)] at hk
      rw [bytes_getD dst m' k hk, hval k (by omega),
        shl1_getD _ k (by rw [bytes_length src m hs]; omega), bytes_getD src m k (by omega)]
      by_cases hk1 : k + 1 < src.len
      · rw [if_pos hk1, bytes_getD src m (k + 1) hk1]
      · rw [if_neg hk1, getD_ge (src.bytes m) (k + 1) (by rw [bytes_length src m hs]; omega)]
        rfl

theorem poly_facts (n : Nat) (p : List Nat) (h : GfnDouble.poly n = some p) :
    supported n ∧ p.length ≤ n ∧ 0 < p.length ∧ ∀ j, p.getD j 0 < 256 := by
  unfold GfnDouble.poly at h
  unfold supported
  split_ifs at h with h1 h2 h3 h4 h5 <;> simp at h <;> subst h <;>
    refine ⟨by omega, by simp; omega, by simp, ?_⟩ <;> intro j
  · rcases j with _ | j <;> simp
  · rcases j with _ | j <;> simp
  · rcases j with _ | _ | j <;> simp
  · rcases j with _ | _ | j <;> simp
  · rcases j with _ | _ | _ | j <;> simp

theorem getD_lt_of_bytes (l : List Nat) (h : ∀ x ∈ l, x < 256) (k : Nat) : l.getD k 0 < 256 := by
  by_cases hk : k < l.length
  · rw [List.getD_eq_getElem?_getD, List.getElem?_eq_getElem hk]
    exact h _ (List.getElem_mem hk)
  · rw [getD_ge l k (by omega)]; omega

theorem GfnDouble_ok (m : Mem) (input : Slice) (p : List Nat)
    (hs : input.ptr + input.len ≤ m.length) (hb : ∀ x ∈ input.bytes m, x < 256)
    (hp : GfnDouble.poly input.len = some p) :
    ∃ r, GfnDouble_naive (input.bytes m) = some r ∧ r.length = input.len ∧
      GfnDouble m input = .ok (m ++ r) ⟨m.length, input.len, input.len⟩ := by
  obtain ⟨_, hpl, hp0, hpb⟩ := poly_facts _ _ hp
  have hbl := bytes_length input m hs
  -- the shift into the fresh buffer
  obtain ⟨m2, hrun2, hl2, hframe2, hval2⟩ :=
    shiftLeft_ok (m ++ List.replicate input.len 0) ⟨m.length, input.len, input.len⟩ input
      (Or.inl (by simp; omega)) rfl (by simp; omega) (by simp)
  have hsame : input.bytes (m ++ List.replicate input.len 0) = input.bytes m := by
    apply ext_getD
    · rw [bytes_length _ _ (by simp; omega), hbl]
    · intro k hk
      rw [bytes_length _ _ (by simp; omega)] at hk
      rw [bytes_getD _ _ k hk, bytes_getD _ _ k hk, getD_append_left _ _ _ (by omega)]
  rw [hsame] at hrun2 hval2
  -- the polynomial loop
  obtain ⟨m3, hrun3, hl3, hframe3, hval3⟩ :=
    GfnDouble_loop_ok ⟨m.length, input.len, input.len⟩ (input.len - p.length)
      ((input.bytes m).getD 0 0 >>> 7) p 0 m2 (by simp; omega) (by simp [hl2])
  have hv : (input.bytes m).getD 0 0 >>> 7 = 0 ∨ (input.bytes m).getD 0 0 >>> 7 = 1 := by
    have := getD_lt_of_bytes _ hb 0
    rw [Nat.shiftRight_eq_div_pow]; omega
  have hnaive : GfnDouble_naive (input.bytes m) =
      some (if (input.bytes m).getD 0 0 >>> 7 = 1 then xorLow (shl1 (input.bytes m)).1 p
        else (shl1 (input.bytes m)).1) := by
    unfold GfnDouble_naive
    rw [hbl, hp, shl1_carry]
    split_ifs <;> rfl
  have hshl : (shl1 (input.bytes m)).1.length = input.len := by rw [shl1_length, hbl]
  have hrl : (if (input.bytes m).getD 0 0 >>> 7 = 1 then xorLow (shl1 (input.bytes m)).1 p
        else (shl1 (input.bytes m)).1).length = input.len := by
    split_ifs
    · rw [xorLow_length _ _ (by omega), hshl]
    · exact hshl
  refine ⟨_, hnaive, hrl, ?_⟩
  have hm3 : m3 = m ++ (if (input.bytes m).getD 0 0 >>> 7 = 1 then
      xorLow (shl1 (input.bytes m)).1 p else (shl1 (input.bytes m)).1) := by
    apply ext_getD
    · rw [hl3, hl2, List.length_append, List.length_append, hrl]; simp
    · intro a ha
      rw [hl3, hl2] at ha
      simp only [List.length_append, List.length_replicate] at ha
      by_cases ham : a < m.length
      · rw [hframe3 a (Or.inl (by simp; omega)), hframe2 a (Or.inl ham),
          getD_append_left _ _ _ ham, getD_append_left _ _ _ ham]
      · obtain ⟨k, rfl⟩ : ∃ k, a = m.length + k := ⟨a - m.length, by omega⟩
        have hk : k < input.len := by omega
        rw [getD_append_right]
        have hsh : m2.getD (m.length + k) 0 = (shl1 (input.bytes m)).1.getD k 0 := by
          rw [← hval2]; exact (bytes_getD ⟨m.length, input.len, input.len⟩ m2 k hk).symm
        by_cases hko : k < input.len - p.length
        · rw [hframe3 _ (Or.inl (by simp; omega)), hsh]
          split_ifs
          · rw [xorLow_getD _ _ (by omega) k (by omega), hshl, if_pos hko]
          · rfl
        · obtain ⟨j, rfl⟩ : ∃ j, k = (input.len - p.length) + j :=
            ⟨k - (input.len - p.length), by omega⟩
          have h3 := hval3 j (by omega)
          simp only [Nat.add_zero] at h3
          rw [← Nat.add_assoc, h3, Nat.add_assoc, hsh]
          rcases hv with h0 | h1
          · rw [h0, cts_zero]; simp
          · rw [h1, cts_one _ (by have := hpb j; omega), if_pos rfl,
              xorLow_getD _ _ (by omega) _ (by omega), hshl, if_neg hko,
              Nat.mod_eq_of_lt (hpb j)]
            congr 2
            omega
  simp only [GfnDouble, hp, make, hrun2, hrun3, hm3]

theorem val_lt (l : List Nat) (h : ∀ x ∈ l, x < 256) : val l < 256 ^ l.length := by
  induction l with
  | nil => simp [val]
  | cons x xs ih =>
    have hx : x < 256 := h x (List.mem_cons_self _ _)
    have hxs := ih (fun y hy => h y (List.mem_cons_of_mem _ hy))
    simp only [val, List.length_cons, pow_succ]
    nlinarith

theorem val_append (a b : List Nat) : val (a ++ b) = val a * 256 ^ b.length + val b := by
  induction a with
  | nil => simp [val]
  | cons x xs ih =>
    show x * 256 ^ (xs ++ b).length + val (xs ++ b) = (x * 256 ^ xs.length + val xs) * 256 ^ b.length + val b
    rw [ih, List.length_append, pow_add]
    ring

theorem shl1_bytes (l : List Nat) (h : ∀ x ∈ l, x < 256) : ∀ y ∈ (shl1 l).1, y < 256 := by
  induction l with
  | nil => simp [shl1]
  | cons x xs ih =>
    have hx : x < 256 := h x (List.mem_cons_self _ _)
    have hc : (shl1 xs).2 < 2 := by
      rw [shl1_carry, Nat.shiftRight_eq_div_pow]
      have := getD_lt_of_bytes xs (fun y hy => h y (List.mem_cons_of_mem _ hy)) 0
      omega
    intro y hy
    simp only [shl1, List.mem_cons] at hy
    rcases hy with rfl | hy
    · exact Nat.or_lt_two_pow (n := 8) (Nat.mod_lt _ (by norm_num)) (by omega)
    · exact ih (fun y hy => h y (List.mem_cons_of_mem _ hy)) y hy

theorem shl_or_carry (x c : Nat) (hc : c < 2) : ((x <<< 1) % 256) ||| c = (x * 2) % 256 + c := by
  have h2 : (x * 2) % 256 = 2 ^ 1 * ((x * 2) % 256 / 2) := by
    have : (x * 2) % 256 % 2 = 0 := by omega
    omega
  rw [Nat.shiftLeft_eq, pow_one, h2, ← Nat.mul_add_lt_is_or (by simpa using hc)]

theorem val_shl1 (l : List Nat) (h : ∀ x ∈ l, x < 256) :
    2 * val l = (shl1 l).2 * 256 ^ l.length + val (shl1 l).1 := by
  induction l with
  | nil => simp [val, shl1]
  | cons x xs ih =>
    have hx : x < 256 := h x (List.mem_cons_self _ _)
    have hxs := ih (fun y hy => h y (List.mem_cons_of_mem _ hy))
    have hc : (shl1 xs).2 < 2 := by
      rw [shl1_carry, Nat.shiftRight_eq_div_pow]
      have := getD_lt_of_bytes xs (fun y hy => h y (List.mem_cons_of_mem _ hy)) 0
      omega
    have hsplit : x * 2 = (x >>> 7) * 256 + (x * 2) % 256 := by
      rw [Nat.shiftRight_eq_div_pow]; omega
    simp only [val, shl1, shl1_length, List.length_cons, pow_succ, shl_or_carry _ _ hc]
    have e : 2 * (x * 256 ^ xs.length + val xs)
        = (x * 2) * 256 ^ xs.length + 2 * val xs := by ring
    rw [e, hxs]
    conv_lhs => rw [hsplit]
    ring

theorem xor_split (i x y A B : Nat) (hA : A < 2 ^ i) (hB : B < 2 ^ i) :
    (2 ^ i * x + A) ^^^ (2 ^ i * y + B) = 2 ^ i * (x ^^^ y) + (A ^^^ B) := by
  apply Nat.eq_of_testBit_eq
  intro j
  rw [Nat.testBit_xor, Nat.testBit_mul_pow_two_add _ hA, Nat.testBit_mul_pow_two_add _ hB,
    Nat.testBit_mul_pow_two_add _ (Nat.xor_lt_two_pow hA hB)]
  by_cases hj : j < i <;> simp [hj, Nat.testBit_xor]

theorem xorBytes_bytes (a b : List Nat) (ha : ∀ x ∈ a, x < 256) (hb : ∀ x ∈ b, x < 256) :
    ∀ z ∈ xorBytes a b, z < 256 := by
  intro z hz
  unfold xorBytes at hz
  rw [List.mem_iff_getElem] at hz
  obtain ⟨n, hn, rfl⟩ := hz
  rw [List.getElem_zipWith]
  exact Nat.xor_lt_two_pow (n := 8) (ha _ (List.getElem_mem _)) (hb _ (List.getElem_mem _))

theorem val_xorBytes (a : List Nat) : ∀ (b : List Nat), a.length = b.length →
    (∀ x ∈ a, x < 256) → (∀ x ∈ b, x < 256) → val (xorBytes a b) = val a ^^^ val b := by
  induction a with
  | nil => intro b hl _ _; cases b <;> simp_all [xorBytes, val]
  | cons x xs ih =>
    intro b hl ha hb
    cases b with
    | nil => simp at hl
    | cons y ys =>
      have hl' : xs.length = ys.length := by simpa using hl
      have hxs : ∀ z ∈ xs, z < 256 := fun z hz => ha z (List.mem_cons_of_mem _ hz)
      have hys : ∀ z ∈ ys, z < 256 := fun z hz => hb z (List.mem_cons_of_mem _ hz)
      have h1 := val_lt xs hxs
      have h2 := val_lt ys hys
      have e : (256 : Nat) ^ xs.length = 2 ^ (8 * xs.length) := by
        rw [pow_mul]; norm_num
      have hlen : (xorBytes xs ys).length = xs.length := by
        rw [xorBytes_length]; omega
      show (x ^^^ y) * 256 ^ (xorBytes xs ys).length + val (xorBytes xs ys)
        = (x * 256 ^ xs.length + val xs) ^^^ (y * 256 ^ ys.length + val ys)
      rw [ih ys hl' hxs hys, hlen, ← hl', e, Nat.mul_comm x, Nat.mul_comm y,
        xor_split _ _ _ _ _ (e ▸ h1) (e ▸ hl' ▸ h2), Nat.mul_comm]

theorem val_xorLow (s p : List Nat) (h : p.length ≤ s.length)
    (hs : ∀ x ∈ s, x < 256) (hp : ∀ x ∈ p, x < 256) :
    val (xorLow s p) = val s ^^^ val p := by
  have hd : ∀ x ∈ s.drop (s.length - p.length), x < 256 :=
    fun x hx => hs x (List.mem_of_mem_drop hx)
  have hdl : (s.drop (s.length - p.length)).length = p.length := by
    rw [List.length_drop]; omega
  have e : (256 : Nat) ^ p.length = 2 ^ (8 * p.length) := by
    rw [pow_mul]; norm_num
  have hsplit : val s = val (s.take (s.length - p.length)) * 256 ^ p.length
      + val (s.drop (s.length - p.length)) := by
    conv_lhs => rw [← List.take_append_drop (s.length - p.length) s]
    rw [val_append, hdl]
  have h1 := val_lt _ hd
  have h2 := val_lt _ hp
  rw [hdl, e] at h1
  rw [e] at h2
  unfold xorLow
  rw [val_append, val_xorBytes _ _ hdl hd hp, xorBytes_length, hdl, Nat.min_self, hsplit, e]
  have := xor_split (8 * p.length) (val (s.take (s.length - p.length))) 0 _ _ h1 h2
  simp only [Nat.mul_zero, Nat.zero_add, Nat.xor_zero] at this
  rw [Nat.mul_comm, ← this, Nat.mul_comm]

theorem val_inj (a : List Nat) : ∀ (b : List Nat), a.length = b.length →
    (∀ x ∈ a, x < 256) → (∀ x ∈ b, x < 256) → val a = val b → a = b := by
  induction a with
  | nil => intro b hl _ _ _; cases b <;> simp_all
  | cons x xs ih =>
    intro b hl ha hb hv
    cases b with
    | nil => simp at hl
    | cons y ys =>
      have hl' : xs.length = ys.length := by simpa using hl
      have hxs : ∀ z ∈ xs, z < 256 := fun z hz => ha z (List.mem_cons_of_mem _ hz)
      have hys : ∀ z ∈ ys, z < 256 := fun z hz => hb z (List.mem_cons_of_mem _ hz)
      have h1 := val_lt xs hxs
      have h2 := val_lt ys hys
      simp only [val] at hv
      rw [← hl'] at hv h2
      have hpos : 0 < 256 ^ xs.length := by positivity
      have hxy : x = y := by
        have e1 : (x * 256 ^ xs.length + val xs) / 256 ^ xs.length = x := by
          rw [Nat.add_comm, Nat.add_mul_div_right _ _ hpos, Nat.div_eq_of_lt h1, Nat.zero_add]
        have e2 : (y * 256 ^ xs.length + val ys) / 256 ^ xs.length = y := by
          rw [Nat.add_comm, Nat.add_mul_div_right _ _ hpos, Nat.div_eq_of_lt h2, Nat.zero_add]
        rw [← e1, ← e2, hv]
      subst hxy
      rw [ih ys hl' hxs hys (by omega)]

theorem poly_val (n : Nat) (p : List Nat) (h : GfnDouble.poly n = some p) :
    val p = fieldPoly n ∧ ∀ x ∈ p, x < 256 := by
  unfold GfnDouble.poly at h
  split_ifs at h with h1 h2 h3 h4 h5 <;> simp at h <;> subst h <;> subst_vars <;>
    refine ⟨by decide, by decide⟩

theorem msb_byte (x : Nat) (hx : x < 256) : (x >>> 7 = 1) ↔ x.testBit 7 = true := by
  rw [Nat.testBit_to_div_mod, Nat.shiftRight_eq_div_pow]
  simp only [decide_eq_true_eq]
  omega

theorem naive_val (l p : List Nat) (hb : ∀ x ∈ l, x < 256)
    (hp : GfnDouble.poly l.length = some p) :
    ∃ r, GfnDouble_naive l = some r ∧ r.length = l.length ∧ (∀ x ∈ r, x < 256) ∧
      val r = ((2 * val l) % 2 ^ (8 * l.length)) ^^^
        (if l.getD 0 0 >>> 7 = 1 then fieldPoly l.length else 0) := by
  obtain ⟨_, hpl, _, _⟩ := poly_facts _ _ hp
  obtain ⟨hpv, hpb⟩ := poly_val _ _ hp
  have hsb := shl1_bytes l hb
  have hsl := shl1_length l
  have hmod : (2 * val l) % 2 ^ (8 * l.length) = val (shl1 l).1 := by
    have e : (2 : Nat) ^ (8 * l.length) = 256 ^ l.length := by rw [pow_mul]; norm_num
    have hlt := val_lt _ hsb
    rw [hsl] at hlt
    rw [e, val_shl1 l hb, Nat.add_comm, Nat.add_mul_mod_self_right, Nat.mod_eq_of_lt hlt]
  unfold GfnDouble_naive
  rw [hp, shl1_carry, hmod]
  by_cases hc : l.getD 0 0 >>> 7 = 1
  · simp only [if_pos hc]
    refine ⟨_, rfl, ?_, ?_, ?_⟩
    · rw [xorLow_length _ _ (by omega), hsl]
    · unfold xorLow
      intro x hx
      rw [List.mem_append] at hx
      rcases hx with hx | hx
      · exact hsb x (List.mem_of_mem_take hx)
      · exact xorBytes_bytes _ _ (fun y hy => hsb y (List.mem_of_mem_drop hy)) hpb x hx
    · rw [val_xorLow _ _ (by omega) hsb hpb, hpv]
  · simp only [if_neg hc]
    exact ⟨_, rfl, hsl, hsb, by simp⟩

theorem out_bytes (m r : List Nat) (n : Nat) (h : r.length = n) :
    (Slice.mk m.length n n).bytes (m ++ r) = r := by
  simp [Slice.bytes, ← h]

/-- C1: for a supported length `L`, `GfnDouble` returns a buffer of length
`L` whose big-endian value is `(2 * val input) mod 2^(8L)`, XORed with the
field polynomial `P_L` when the most significant bit of `input[0]` is set; and
the result coincides with the naive branching reference (shift, then XOR the
polynomial bytes into the low-order end if the carry-out is 1). -/
theorem GfnDouble_field_doubling (m : Mem) (input : Slice) (hv : input.valid m)
    (hb : ∀ x ∈ input.bytes m, x < 256) (hL : supported input.len) :
    ∃ m' out, GfnDouble m input = .ok m' out ∧ out.len = input.len ∧
      (out.bytes m').length = input.len ∧
      val (out.bytes m') = ((2 * val (input.bytes m)) % 2 ^ (8 * input.len)) ^^^
        (if ((input.bytes m).getD 0 0).testBit 7 then fieldPoly input.len else 0) ∧
      GfnDouble_naive (input.bytes m) = some (out.bytes m') := by
  have hs : input.ptr + input.len ≤ m.length := by
    have := hv.1; have := hv.2; omega
  have hbl := bytes_length input m hs
  obtain ⟨p, hp⟩ : ∃ p, GfnDouble.poly input.len = some p := by
    unfold GfnDouble.poly
    rcases hL with h | h | h | h | h <;> rw [h] <;> simp
  obtain ⟨r, hn, hrl, hrun⟩ := GfnDouble_ok m input p hs hb hp
  obtain ⟨r', hn', _, _, hval⟩ := naive_val (input.bytes m) p hb (by rw [hbl]; exact hp)
  have hrr : r' = r := by rw [hn] at hn'; exact (Option.some.inj hn').symm
  subst hrr
  refine ⟨m ++ r', _, hrun, rfl, ?_, ?_, ?_⟩
  · rw [out_bytes m r' _ hrl]; exact hrl
  · rw [out_bytes m r' _ hrl, hval, hbl]
    congr 1
    have := msb_byte _ (getD_lt_of_bytes _ hb 0)
    by_cases h : (input.bytes m).getD 0 0 >>> 7 = 1
    · rw [if_pos h, if_pos (this.mp h)]
    · rw [if_neg h, if_neg (fun h' => h (this.mpr h'))]
  · rw [out_bytes m r' _ hrl]; exact hn

theorem GfnDouble_field_doubling_witness :
    (Slice.mk 1 8 8).valid [7, 0x80, 0, 0, 0, 0, 0, 0, 1] ∧
    (∀ x ∈ (Slice.mk 1 8 8).bytes [7, 0x80, 0, 0, 0, 0, 0, 0, 1], x < 256) ∧
    supported (Slice.mk 1 8 8).len ∧
    ∃ m' out, GfnDouble [7, 0x80, 0, 0, 0, 0, 0, 0, 1] (Slice.mk 1 8 8) = .ok m' out ∧
      out.len = (Slice.mk 1 8 8).len ∧
      (out.bytes m').length = (Slice.mk 1 8 8).len ∧
      val (out.bytes m') =
        ((2 * val ((Slice.mk 1 8 8).bytes [7, 0x80, 0, 0, 0, 0, 0, 0, 1])) %
          2 ^ (8 * (Slice.mk 1 8 8).len)) ^^^
        (if (((Slice.mk 1 8 8).bytes [7, 0x80, 0, 0, 0, 0, 0, 0, 1]).getD 0 0).testBit 7
          then fieldPoly (Slice.mk 1 8 8).len else 0) ∧
      GfnDouble_naive ((Slice.mk 1 8 8).bytes [7, 0x80, 0, 0, 0, 0, 0, 0, 1])
        = some (out.bytes m') :=
  ⟨by decide, by decide, by decide,
    GfnDouble_field_doubling [7, 0x80, 0, 0, 0, 0, 0, 0, 1] (Slice.mk 1 8 8)
      (by decide) (by decide) (by decide)⟩

theorem GfnDouble_runs (m : Mem) (input : Slice) (p : List Nat)
    (hs : input.ptr + input.len ≤ m.length) (hp : GfnDouble.poly input.len = some p) :
    ∃ m', GfnDouble m input = .ok m' ⟨m.length, input.len, input.len⟩ := by
  obtain ⟨_, hpl, _, _⟩ := poly_facts _ _ hp
  obtain ⟨m2, hrun2, hl2, _, _⟩ :=
    shiftLeft_ok (m ++ List.replicate input.len 0) ⟨m.length, input.len, input.len⟩ input
      (Or.inl (by simp; omega)) rfl (by simp; omega) (by simp)
  obtain ⟨m3, hrun3, _, _, _⟩ :=
    GfnDouble_loop_ok ⟨m.length, input.len, input.len⟩ (input.len - p.length)
      ((input.bytes (m ++ List.replicate input.len 0)).getD 0 0 >>> 7) p 0 m2
      (by simp; omega) (by simp [hl2])
  exact ⟨m3, by simp only [GfnDouble, hp, make, hrun2, hrun3]⟩

theorem poly_none (n : Nat) (h : ¬ supported n) : GfnDouble.poly n = none := by
  unfold supported at h
  unfold GfnDouble.poly
  split_ifs <;> first | rfl | omega

theorem poly_some (n : Nat) (h : supported n) : ∃ p, GfnDouble.poly n = some p := by
  unfold GfnDouble.poly
  rcases h with h | h | h | h | h <;> rw [h] <;> simp

/-- C2: `GfnDouble` panics exactly when `len(input)` is not one of 8, 16, 32,
64, 128.  For a supported length it returns a buffer of that length; for an
unsupported length it panics at once, with the heap untouched, and returns no
buffer at all. -/
theorem GfnDouble_fault_iff (m : Mem) (input : Slice) (hv : input.valid m) :
    ((∃ m', GfnDouble m input = .fault m') ↔ ¬ supported input.len) ∧
    (supported input.len →
      ∃ m' out, GfnDouble m input = .ok m' out ∧ out.len = input.len) ∧
    (¬ supported input.len → GfnDouble m input = .fault m) := by
  have hs : input.ptr + input.len ≤ m.length := by
    have := hv.1; have := hv.2; omega
  have hok : supported input.len →
      ∃ m' out, GfnDouble m input = .ok m' out ∧ out.len = input.len := by
    intro h
    obtain ⟨p, hp⟩ := poly_some _ h
    obtain ⟨m', hrun⟩ := GfnDouble_runs m input p hs hp
    exact ⟨m', _, hrun, rfl⟩
  have hbad : ¬ supported input.len → GfnDouble m input = .fault m := by
    intro h
    simp only [GfnDouble, poly_none _ h]
  refine ⟨⟨?_, fun h => ⟨m, hbad h⟩⟩, hok, hbad⟩
  rintro ⟨m', hf⟩ h
  obtain ⟨m2, out, hrun, _⟩ := hok h
  rw [hrun] at hf
  exact Res.noConfusion hf

theorem GfnDouble_fault_iff_witness :
    (Slice.mk 0 3 4).valid [1, 2, 3, 4] ∧
    ((∃ m', GfnDouble [1, 2, 3, 4] (Slice.mk 0 3 4) = .fault m') ↔
        ¬ supported (Slice.mk 0 3 4).len) ∧
    (supported (Slice.mk 0 3 4).len →
      ∃ m' out, GfnDouble [1, 2, 3, 4] (Slice.mk 0 3 4) = .ok m' out ∧
        out.len = (Slice.mk 0 3 4).len) ∧
    (¬ supported (Slice.mk 0 3 4).len →
      GfnDouble [1, 2, 3, 4] (Slice.mk 0 3 4) = .fault [1, 2, 3, 4]) :=
  ⟨by decide, GfnDouble_fault_iff [1, 2, 3, 4] (Slice.mk 0 3 4) (by decide)⟩

/-- C3 (as amended): when `len(dst) == len(src) == n` and `dst` either does not
overlap `src` or starts at or after the first byte of `src` (separate buffers
and `dst == src` included), `shiftLeft(dst, src)` returns normally, the
returned carry is 0 or 1 and is the most significant bit of the original
`src[0]` (0 when `n = 0`), and `dst` holds the original `src` shifted left by
one bit: `2 * val(src) = r * 2^(8n) + val(dst)`. -/
theorem shiftLeft_shifts (m : Mem) (dst src : Slice) (hs : src.valid m) (hd : dst.valid m)
    (hb : ∀ x ∈ src.bytes m, x < 256) (hlen : dst.len = src.len)
    (hsep : src.ptr ≤ dst.ptr ∨ dst.ptr + dst.len ≤ src.ptr) :
    ∃ m' r, shiftLeft m dst src = .ok m' r ∧ (r = 0 ∨ r = 1) ∧
      r = (if ((src.bytes m).getD 0 0).testBit 7 then 1 else 0) ∧
      (dst.bytes m').length = src.len ∧
      2 * val (src.bytes m) = r * 2 ^ (8 * src.len) + val (dst.bytes m') := by
  have hs' : src.ptr + src.len ≤ m.length := by
    have := hs.1; have := hs.2; omega
  have hd' : dst.ptr + dst.len ≤ m.length := by
    have := hd.1; have := hd.2; omega
  obtain ⟨m', hrun, hl, _, hbytes⟩ := shiftLeft_ok m dst src hsep hlen hs' hd'
  have hx := getD_lt_of_bytes _ hb 0
  have hmsb := msb_byte _ hx
  have e : (2 : Nat) ^ (8 * src.len) = 256 ^ (src.bytes m).length := by
    rw [bytes_length src m hs', pow_mul]; norm_num
  refine ⟨m', _, hrun, ?_, ?_, ?_, ?_⟩
  · rw [Nat.shiftRight_eq_div_pow]; omega
  · by_cases h : (src.bytes m).getD 0 0 >>> 7 = 1
    · rw [if_pos (hmsb.mp h), h]
    · rw [if_neg (fun h' => h (hmsb.mpr h'))]
      rw [Nat.shiftRight_eq_div_pow] at h ⊢; omega
  · rw [hbytes, shl1_length, bytes_length src m hs']
  · rw [hbytes, e, ← shl1_carry]
    exact val_shl1 _ hb

theorem shiftLeft_shifts_witness :
    (Slice.mk 0 2 2).valid [0x81, 0x80, 0] ∧ (Slice.mk 1 2 2).valid [0x81, 0x80, 0] ∧
    (∀ x ∈ (Slice.mk 0 2 2).bytes [0x81, 0x80, 0], x < 256) ∧
    (Slice.mk 1 2 2).len = (Slice.mk 0 2 2).len ∧
    ((Slice.mk 0 2 2).ptr ≤ (Slice.mk 1 2 2).ptr ∨
      (Slice.mk 1 2 2).ptr + (Slice.mk 1 2 2).len ≤ (Slice.mk 0 2 2).ptr) ∧
    ∃ m' r, shiftLeft [0x81, 0x80, 0] (Slice.mk 1 2 2) (Slice.mk 0 2 2) = .ok m' r ∧
      (r = 0 ∨ r = 1) ∧
      r = (if (((Slice.mk 0 2 2).bytes [0x81, 0x80, 0]).getD 0 0).testBit 7 then 1 else 0) ∧
      ((Slice.mk 1 2 2).bytes m').length = (Slice.mk 0 2 2).len ∧
      2 * val ((Slice.mk 0 2 2).bytes [0x81, 0x80, 0])
        = r * 2 ^ (8 * (Slice.mk 0 2 2).len) + val ((Slice.mk 1 2 2).bytes m') :=
  ⟨by decide, by decide, by decide, by decide, by decide,
    shiftLeft_shifts [0x81, 0x80, 0] (Slice.mk 1 2 2) (Slice.mk 0 2 2)
      (by decide) (by decide) (by decide) (by decide) (by decide)⟩

/-- C3 (as stated) fails when `dst` starts one byte before `src` in the same
storage: on the heap `[0x00, 0x81, 0x80]` with `dst` the first two bytes and
`src` the last two, `src[0]` is overwritten before it is read; the call
returns carry 0 although the most significant bit of `src[0]` is 1, and
`dst` ends as `[0x01, 0x00]`, not `src << 1`.  With a separate destination the
same `src` gives carry 1 and `[0x03, 0x00]`. -/
theorem shiftLeft_backward_overlap :
    (Slice.mk 0 2 2).len = (Slice.mk 1 2 2).len ∧
    shiftLeft [0x00, 0x81, 0x80] (Slice.mk 0 2 2) (Slice.mk 1 2 2) = .ok [0x01, 0x00, 0x80] 0 ∧
    (((Slice.mk 1 2 2).bytes [0x00, 0x81, 0x80]).getD 0 0).testBit 7 = true ∧
    2 * val ((Slice.mk 1 2 2).bytes [0x00, 0x81, 0x80])
      ≠ 0 * 2 ^ (8 * 2) + val ((Slice.mk 0 2 2).bytes [0x01, 0x00, 0x80]) ∧
    shiftLeft [0x00, 0x81, 0x80, 0x00, 0x00] (Slice.mk 3 2 2) (Slice.mk 1 2 2)
      = .ok [0x00, 0x81, 0x80, 0x03, 0x00] 1 := by
  decide

theorem shiftRight_xor (x y k : Nat) : (x ^^^ y) >>> k = (x >>> k) ^^^ (y >>> k) := by
  apply Nat.eq_of_testBit_eq
  intro j
  simp [Nat.testBit_shiftRight, Nat.testBit_xor]

theorem dbl_mod_xor (A B n : Nat) :
    (2 * (A ^^^ B)) % 2 ^ n = ((2 * A) % 2 ^ n) ^^^ ((2 * B) % 2 ^ n) := by
  apply Nat.eq_of_testBit_eq
  intro j
  have e : ∀ C : Nat, 2 * C = 2 ^ 1 * C := fun C => by ring
  rw [e, e A, e B]
  simp only [Nat.testBit_mod_two_pow, Nat.testBit_xor, Nat.testBit_mul_pow_two]
  cases decide (j < n) <;> cases decide (j ≥ 1) <;> simp

theorem GfnDouble_bytes (m : Mem) (input : Slice) (hv : input.valid m)
    (hb : ∀ x ∈ input.bytes m, x < 256) (hL : supported input.len) :
    ∃ r, GfnDouble m input = .ok (m ++ r) ⟨m.length, input.len, input.len⟩ ∧
      r.length = input.len ∧ (∀ x ∈ r, x < 256) ∧
      GfnDouble_naive (input.bytes m) = some r ∧
      val r = ((2 * val (input.bytes m)) % 2 ^ (8 * input.len)) ^^^
        (if (input.bytes m).getD 0 0 >>> 7 = 1 then fieldPoly input.len else 0) := by
  have hs : input.ptr + input.len ≤ m.length := by
    have := hv.1; have := hv.2; omega
  have hbl := bytes_length input m hs
  obtain ⟨p, hp⟩ := poly_some _ hL
  obtain ⟨r, hn, hrl, hrun⟩ := GfnDouble_ok m input p hs hb hp
  obtain ⟨r', hn', _, hrb, hval⟩ := naive_val (input.bytes m) p hb (by rw [hbl]; exact hp)
  have hrr : r' = r := by rw [hn] at hn'; exact (Option.some.inj hn').symm
  subst hrr
  rw [hbl] at hval
  exact ⟨r', hrun, hrl, hrb, hn, hval⟩

/-- C4: doubling is linear over byte-wise XOR.  If `a` and `b` have the same
supported length and `c` holds `a XOR b`, then `GfnDouble(c)` is the byte-wise
XOR of `GfnDouble(a)` and `GfnDouble(b)`. -/
theorem GfnDouble_xor (ma mb mc : Mem) (a b c : Slice)
    (ha : a.valid ma) (hb : b.valid mb) (hc : c.valid mc)
    (hab : ∀ x ∈ a.bytes ma, x < 256) (hbb : ∀ x ∈ b.bytes mb, x < 256)
    (hL : supported a.len) (hlb : b.len = a.len) (hlc : c.len = a.len)
    (hxor : c.bytes mc = xorBytes (a.bytes ma) (b.bytes mb)) :
    ∃ ma' oa mb' ob mc' oc, GfnDouble ma a = .ok ma' oa ∧ GfnDouble mb b = .ok mb' ob ∧
      GfnDouble mc c = .ok mc' oc ∧
      oc.bytes mc' = xorBytes (oa.bytes ma') (ob.bytes mb') := by
  have hsa : a.ptr + a.len ≤ ma.length := by have := ha.1; have := ha.2; omega
  have hsb : b.ptr + b.len ≤ mb.length := by have := hb.1; have := hb.2; omega
  have hla := bytes_length a ma hsa
  have hlB := bytes_length b mb hsb
  have hcb : ∀ x ∈ c.bytes mc, x < 256 := by
    rw [hxor]; exact xorBytes_bytes _ _ hab hbb
  obtain ⟨ra, hra, hral, hrab, _, hva⟩ := GfnDouble_bytes ma a ha hab hL
  obtain ⟨rb, hrb, hrbl, hrbb, _, hvb⟩ := GfnDouble_bytes mb b hb hbb (hlb ▸ hL)
  obtain ⟨rc, hrc, hrcl, hrcb, _, hvc⟩ := GfnDouble_bytes mc c hc hcb (hlc ▸ hL)
  refine ⟨_, _, _, _, _, _, hra, hrb, hrc, ?_⟩
  rw [out_bytes _ _ _ hral, out_bytes _ _ _ hrbl, out_bytes _ _ _ hrcl]
  have hpos : 0 < a.len := by unfold supported at hL; omega
  apply val_inj _ _ (by rw [xorBytes_length]; omega) hrcb (xorBytes_bytes _ _ hrab hrbb)
  rw [val_xorBytes _ _ (by omega) hrab hrbb, hvc, hva, hvb, hxor,
    val_xorBytes _ _ (by omega) hab hbb, hlb, hlc, dbl_mod_xor,
    xorBytes_getD _ _ 0 (by omega) (by omega), shiftRight_xor]
  have h1 : (a.bytes ma).getD 0 0 >>> 7 < 2 := by
    have := getD_lt_of_bytes _ hab 0
    rw [Nat.shiftRight_eq_div_pow]; omega
  have h2 : (b.bytes mb).getD 0 0 >>> 7 < 2 := by
    have := getD_lt_of_bytes _ hbb 0
    rw [Nat.shiftRight_eq_div_pow]; omega
  generalize (a.bytes ma).getD 0 0 >>> 7 = ca at h1
  generalize (b.bytes mb).getD 0 0 >>> 7 = cb at h2
  generalize (2 * val (a.bytes ma)) % 2 ^ (8 * a.len) = U
  generalize (2 * val (b.bytes mb)) % 2 ^ (8 * a.len) = V
  generalize fieldPoly a.len = P
  have hca : ca = 0 ∨ ca = 1 := by omega
  have hcb' : cb = 0 ∨ cb = 1 := by omega
  rcases hca with rfl | rfl <;> rcases hcb' with rfl | rfl
  · simp
  · simp [Nat.xor_assoc]
  · simp only [Nat.xor_zero, if_true, one_ne_zero, if_false, Nat.zero_ne_one]
    rw [Nat.xor_assoc, Nat.xor_assoc, Nat.xor_comm V P]
  · have e : (1 : Nat) ^^^ 1 = 0 := by decide
    simp only [e, if_true, Nat.zero_ne_one, if_false, Nat.xor_zero]
    rw [Nat.xor_assoc, ← Nat.xor_assoc P V P, Nat.xor_comm P V, Nat.xor_assoc V P P,
      Nat.xor_self, Nat.xor_zero]

theorem par8_xor (x y : Nat) : par8 (x ^^^ y) = xor (par8 x) (par8 y) := by
  simp only [par8, Nat.testBit_xor]
  generalize x.testBit 0 = a0; generalize x.testBit 1 = a1
  generalize x.testBit 2 = a2; generalize x.testBit 3 = a3
  generalize x.testBit 4 = a4; generalize x.testBit 5 = a5
  generalize x.testBit 6 = a6; generalize x.testBit 7 = a7
  cases a0 <;> cases a1 <;> cases a2 <;> cases a3 <;> cases a4 <;> cases a5 <;>
    cases a6 <;> cases a7 <;> simp

set_option maxRecDepth 100000 in
theorem par8_shl : ∀ x, x < 256 → ∀ c, c < 2 →
    par8 (((x <<< 1) % 256) ||| c) = xor (xor (par8 x) (decide (x >>> 7 = 1))) (decide (c = 1)) := by
  decide

theorem parity_append (a b : List Nat) : parity (a ++ b) = xor (parity a) (parity b) := by
  induction a with
  | nil => simp [parity]
  | cons x xs ih => simp [parity, ih]

theorem parity_xorBytes (a : List Nat) : ∀ b : List Nat, a.length = b.length →
    parity (xorBytes a b) = xor (parity a) (parity b) := by
  induction a with
  | nil => intro b hl; cases b <;> simp_all [xorBytes, parity]
  | cons x xs ih =>
    intro b hl
    cases b with
    | nil => simp at hl
    | cons y ys =>
      have := ih ys (by simpa using hl)
      simp only [xorBytes, List.zipWith_cons_cons, parity, par8_xor] at this ⊢
      rw [this]
      cases par8 x <;> cases par8 y <;> cases parity xs <;> cases parity ys <;> rfl

theorem parity_xorLow (s p : List Nat) (h : p.length ≤ s.length) :
    parity (xorLow s p) = xor (parity s) (parity p) := by
  have hdl : (s.drop (s.length - p.length)).length = p.length := by
    rw [List.length_drop]; omega
  have hs : parity s = xor (parity (s.take (s.length - p.length)))
      (parity (s.drop (s.length - p.length))) := by
    rw [← parity_append, List.take_append_drop]
  unfold xorLow
  rw [parity_append, parity_xorBytes _ _ hdl, hs]
  cases parity (s.take (s.length - p.length)) <;>
    cases parity (s.drop (s.length - p.length)) <;> cases parity p <;> rfl

theorem parity_shl1 (l : List Nat) (h : ∀ x ∈ l, x < 256) :
    parity (shl1 l).1 = xor (parity l) (decide ((shl1 l).2 = 1)) := by
  induction l with
  | nil => simp [shl1, parity]
  | cons x xs ih =>
    have hx : x < 256 := h x (List.mem_cons_self _ _)
    have hxs := ih (fun y hy => h y (List.mem_cons_of_mem _ hy))
    have hc : (shl1 xs).2 < 2 := by
      rw [shl1_carry, Nat.shiftRight_eq_div_pow]
      have := getD_lt_of_bytes xs (fun y hy => h y (List.mem_cons_of_mem _ hy)) 0
      omega
    simp only [shl1, parity, par8_shl x hx _ hc, hxs]
    cases par8 x <;> cases parity xs <;> cases decide ((shl1 xs).2 = 1) <;>
      cases decide (x >>> 7 = 1) <;> rfl

theorem poly_parity (n : Nat) (p : List Nat) (h : GfnDouble.poly n = some p) :
    parity p = false := by
  unfold GfnDouble.poly at h
  split_ifs at h <;> simp at h <;> subst h <;> decide

theorem val_replicate_zero (n : Nat) : val (List.replicate n 0) = 0 := by
  induction n with
  | zero => rfl
  | succ n ih => simp [List.replicate_succ, val, ih]

/-- C5: doubling has no nonzero fixed point.  If `GfnDouble` applied to an
input of a supported length returns a buffer with the same bytes as the
input, the input is the all-zero buffer. -/
theorem GfnDouble_fixed_point (m : Mem) (input : Slice) (hv : input.valid m)
    (hb : ∀ x ∈ input.bytes m, x < 256) (hL : supported input.len)
    (m' : Mem) (out : Slice) (hrun : GfnDouble m input = .ok m' out)
    (hfix : out.bytes m' = input.bytes m) :
    input.bytes m = List.replicate input.len 0 := by
  have hs : input.ptr + input.len ≤ m.length := by have := hv.1; have := hv.2; omega
  have hbl := bytes_length input m hs
  obtain ⟨p, hp⟩ := poly_some _ hL
  obtain ⟨_, hpl, _, _⟩ := poly_facts _ _ hp
  obtain ⟨r, hrun', hrl, hrb, hn, _⟩ := GfnDouble_bytes m input hv hb hL
  rw [hrun] at hrun'
  injection hrun' with hm ho
  subst hm ho
  rw [out_bytes _ _ _ hrl] at hfix
  subst hfix
  -- from here `r` is the input and `GfnDouble_naive r = some r`
  have hsl := shl1_length (input.bytes m)
  unfold GfnDouble_naive at hn
  rw [hbl, hp] at hn
  dsimp only at hn
  have hzero : (shl1 (input.bytes m)).2 ≠ 1 → (shl1 (input.bytes m)).1 = input.bytes m →
      input.bytes m = List.replicate input.len 0 := by
    intro hc hsame
    have hc0 : (shl1 (input.bytes m)).2 = 0 := by
      have := getD_lt_of_bytes _ hb 0
      rw [shl1_carry, Nat.shiftRight_eq_div_pow] at hc ⊢; omega
    have h2 := val_shl1 _ hb
    rw [hsame, hc0] at h2
    apply val_inj _ _ (by rw [hbl]; simp) hb (by intro x hx; rw [List.mem_replicate] at hx; omega)
    rw [val_replicate_zero]; omega
  by_cases hc : (shl1 (input.bytes m)).2 = 1
  · rw [if_pos hc] at hn
    have hpar := parity_xorLow (shl1 (input.bytes m)).1 p (by omega)
    rw [Option.some.inj hn, parity_shl1 _ hb, hc, poly_parity _ _ hp] at hpar
    revert hpar
    cases parity (input.bytes m) <;> simp
  · rw [if_neg hc] at hn
    exact hzero hc (Option.some.inj hn)

theorem GfnDouble_xor_witness :
    (Slice.mk 0 8 8).valid [0x80, 1, 2, 3, 4, 5, 6, 7, 0xC1, 0, 0, 0, 0, 0, 0, 9,
      0x41, 1, 2, 3, 4, 5, 6, 14] ∧
    (Slice.mk 8 8 8).len = (Slice.mk 0 8 8).len ∧ (Slice.mk 16 8 8).len = (Slice.mk 0 8 8).len ∧
    (Slice.mk 16 8 8).bytes [0x80, 1, 2, 3, 4, 5, 6, 7, 0xC1, 0, 0, 0, 0, 0, 0, 9,
      0x41, 1, 2, 3, 4, 5, 6, 14] =
      xorBytes ((Slice.mk 0 8 8).bytes [0x80, 1, 2, 3, 4, 5, 6, 7, 0xC1, 0, 0, 0, 0, 0, 0, 9,
        0x41, 1, 2, 3, 4, 5, 6, 14])
      ((Slice.mk 8 8 8).bytes [0x80, 1, 2, 3, 4, 5, 6, 7, 0xC1, 0, 0, 0, 0, 0, 0, 9,
        0x41, 1, 2, 3, 4, 5, 6, 14]) ∧
    ∃ ma' oa mb' ob mc' oc,
      GfnDouble [0x80, 1, 2, 3, 4, 5, 6, 7, 0xC1, 0, 0, 0, 0, 0, 0, 9,
        0x41, 1, 2, 3, 4, 5, 6, 14] (Slice.mk 0 8 8) = .ok ma' oa ∧
      GfnDouble [0x80, 1, 2, 3, 4, 5, 6, 7, 0xC1, 0, 0, 0, 0, 0, 0, 9,
        0x41, 1, 2, 3, 4, 5, 6, 14] (Slice.mk 8 8 8) = .ok mb' ob ∧
      GfnDouble [0x80, 1, 2, 3, 4, 5, 6, 7, 0xC1, 0, 0, 0, 0, 0, 0, 9,
        0x41, 1, 2, 3, 4, 5, 6, 14] (Slice.mk 16 8 8) = .ok mc' oc ∧
      oc.bytes mc' = xorBytes (oa.bytes ma') (ob.bytes mb') :=
  ⟨by decide, by decide, by decide, by decide,
    GfnDouble_xor _ _ _ (Slice.mk 0 8 8) (Slice.mk 8 8 8) (Slice.mk 16 8 8)
      (by decide) (by decide) (by decide) (by decide) (by decide) (by decide) (by decide)
      (by decide) (by decide)⟩

theorem GfnDouble_fixed_point_witness :
    (Slice.mk 0 8 8).valid [0, 0, 0, 0, 0, 0, 0, 0] ∧
    GfnDouble [0, 0, 0, 0, 0, 0, 0, 0] (Slice.mk 0 8 8)
      = .ok [0, 0, 0, 0, 0, 0, 0, 0, 0, 0, 0, 0, 0, 0, 0, 0] (Slice.mk 8 8 8) ∧
    (Slice.mk 8 8 8).bytes [0, 0, 0, 0, 0, 0, 0, 0, 0, 0, 0, 0, 0, 0, 0, 0]
      = (Slice.mk 0 8 8).bytes [0, 0, 0, 0, 0, 0, 0, 0] ∧
    (Slice.mk 0 8 8).bytes [0, 0, 0, 0, 0, 0, 0, 0] = List.replicate (Slice.mk 0 8 8).len 0 :=
  ⟨by decide, by decide, by decide,
    GfnDouble_fixed_point [0, 0, 0, 0, 0, 0, 0, 0] (Slice.mk 0 8 8) (by decide) (by decide)
      (by decide) [0, 0, 0, 0, 0, 0, 0, 0, 0, 0, 0, 0, 0, 0, 0, 0] (Slice.mk 8 8 8)
      (by decide) (by decide)⟩

/-- C6 (as stated) fails: for the 16-byte input `00 .. 00 80` the carry out
of the shift is 0, so `GfnDouble` returns the plain shift `00 .. 01 00`, which
differs from the shift with `0x87` XORed into its last byte. -/
theorem GfnDouble_vector_low_byte_no_xor :
    GfnDouble (List.replicate 15 0 ++ [0x80]) (Slice.mk 0 16 16)
      = .ok (List.replicate 15 0 ++ [0x80] ++ (List.replicate 14 0 ++ [0x01, 0x00]))
          (Slice.mk 16 16 16) ∧
    (Slice.mk 16 16 16).bytes
        (List.replicate 15 0 ++ [0x80] ++ (List.replicate 14 0 ++ [0x01, 0x00]))
      ≠ xorLow (shl1 (List.replicate 15 0 ++ [0x80])).1 [0x87] := by
  decide

/-- C6 (as amended): for the 16-byte input `00 .. 00 80` `GfnDouble` XORs
nothing in and returns the input shifted left by one bit, `00 .. 01 00`; for
the 16-byte input `80 00 .. 00`, whose most significant bit is set in the
big-endian convention of the code, it returns the shifted input with `0x87`
XORed into its last byte, `00 .. 00 87`. -/
theorem GfnDouble_vectors :
    (GfnDouble (List.replicate 15 0 ++ [0x80]) (Slice.mk 0 16 16)
      = .ok (List.replicate 15 0 ++ [0x80] ++ (shl1 (List.replicate 15 0 ++ [0x80])).1)
          (Slice.mk 16 16 16) ∧
     (shl1 (List.replicate 15 0 ++ [0x80])).1 = List.replicate 14 0 ++ [0x01, 0x00]) ∧
    (GfnDouble ([0x80] ++ List.replicate 15 0) (Slice.mk 0 16 16)
      = .ok ([0x80] ++ List.replicate 15 0 ++
          xorLow (shl1 ([0x80] ++ List.replicate 15 0)).1 [0x87]) (Slice.mk 16 16 16) ∧
     xorLow (shl1 ([0x80] ++ List.replicate 15 0)).1 [0x87] = List.replicate 15 0 ++ [0x87]) := by
  decide

/-- C7: for each supported length `L`, `GfnDouble` applied to an all-zero
buffer of length `L` returns an all-zero buffer of length `L`. -/
theorem GfnDouble_zero (m : Mem) (input : Slice) (hv : input.valid m)
    (hL : supported input.len) (hz : input.bytes m = List.replicate input.len 0) :
    ∃ m' out, GfnDouble m input = .ok m' out ∧ out.len = input.len ∧
      out.bytes m' = List.replicate input.len 0 := by
  have hb : ∀ x ∈ input.bytes m, x < 256 := by
    rw [hz]; intro x hx; rw [List.mem_replicate] at hx; omega
  obtain ⟨r, hrun, hrl, hrb, _, hval⟩ := GfnDouble_bytes m input hv hb hL
  have hpos : 0 < input.len := by unfold supported at hL; omega
  refine ⟨_, _, hrun, rfl, ?_⟩
  rw [out_bytes _ _ _ hrl]
  apply val_inj _ _ (by simpa using hrl) hrb
    (by intro x hx; rw [List.mem_replicate] at hx; omega)
  rw [hval, hz, val_replicate_zero]
  have h0 : (List.replicate input.len 0).getD 0 0 = 0 := by
    cases h : input.len with
    | zero => rfl
    | succ n => rfl
  rw [h0]
  simp

theorem GfnDouble_zero_witness :
    (Slice.mk 2 16 20).valid (7 :: 9 :: List.replicate 20 0) ∧
    supported (Slice.mk 2 16 20).len ∧
    (Slice.mk 2 16 20).bytes (7 :: 9 :: List.replicate 20 0)
      = List.replicate (Slice.mk 2 16 20).len 0 ∧
    ∃ m' out, GfnDouble (7 :: 9 :: List.replicate 20 0) (Slice.mk 2 16 20) = .ok m' out ∧
      out.len = (Slice.mk 2 16 20).len ∧
      out.bytes m' = List.replicate (Slice.mk 2 16 20).len 0 :=
  ⟨by decide, by decide, by decide,
    GfnDouble_zero (7 :: 9 :: List.replicate 20 0) (Slice.mk 2 16 20)
      (by decide) (by decide) (by decide)⟩

theorem bytes_frame (s : Slice) (m m' : Mem) (hl : m'.length = m.length)
    (hs : s.ptr + s.len ≤ m.length)
    (h : ∀ k, k < s.len → m'.getD (s.ptr + k) 0 = m.getD (s.ptr + k) 0) :
    s.bytes m' = s.bytes m := by
  apply ext_getD
  · rw [bytes_length s m' (by omega), bytes_length s m hs]
  · intro k hk
    rw [bytes_length s m' (by omega)] at hk
    rw [bytes_getD s m' k hk, bytes_getD s m k hk, h k hk]

theorem XorBytesMut_loop_ok (X Y : Slice) (H : X.ptr ≤ Y.ptr ∨ Y.ptr + Y.len ≤ X.ptr) :
    ∀ (n i : Nat) (m : Mem), i + n = Y.len → Y.len ≤ X.len →
      X.ptr + X.len ≤ m.length → Y.ptr + Y.len ≤ m.length →
      ∃ m', XorBytesMut.loop X Y n i m = .ok m' () ∧ m'.length = m.length ∧
        (∀ a, a < X.ptr + i ∨ X.ptr + i + n ≤ a → m'.getD a 0 = m.getD a 0) ∧
        (∀ j, j < n → m'.getD (X.ptr + i + j) 0 =
          m.getD (X.ptr + i + j) 0 ^^^ m.getD (Y.ptr + i + j) 0) := by
  intro n
  induction n with
  | zero =>
    intro i m _ _ _ _
    exact ⟨m, rfl, rfl, fun _ _ => rfl, fun j hj => absurd hj (Nat.not_lt_zero j)⟩
  | succ n ih =>
    intro i m hin hYX hX hY
    have hlen : X.ptr + i < m.length := by omega
    obtain ⟨m', hrun, hl, hframe, hval⟩ :=
      ih (i + 1) (m.set (X.ptr + i) (m.getD (X.ptr + i) 0 ^^^ m.getD (Y.ptr + i) 0))
        (by omega) hYX (by simpa using hX) (by simpa using hY)
    refine ⟨m', ?_, ?_, ?_, ?_⟩
    · simp only [XorBytesMut.loop, Slice.get_ok X m i (by omega) hX,
        Slice.get_ok Y m i (by omega) hY, Slice.set_ok X m i _ (by omega) hX, hrun]
    · simpa using hl
    · intro a ha
      rw [hframe a (by omega), getD_set _ _ _ _ hlen, if_neg (by omega)]
    · intro j hj
      cases j with
      | zero =>
        rw [Nat.add_zero, Nat.add_zero, hframe _ (by omega), getD_set _ _ _ _ hlen, if_pos rfl]
      | succ j =>
        have h := hval j (by omega)
        have e1 : X.ptr + (i + 1) + j = X.ptr + i + (j + 1) := by omega
        have e2 : Y.ptr + (i + 1) + j = Y.ptr + i + (j + 1) := by omega
        rw [e1, e2, getD_set _ _ _ _ hlen, if_neg (by omega), getD_set _ _ _ _ hlen,
          if_neg (by omega)] at h
        exact h

theorem XorBytes_loop_ok (Z X Y : Slice) (HX : Z.ptr ≤ X.ptr ∨ X.ptr + X.len ≤ Z.ptr)
    (HY : Z.ptr ≤ Y.ptr ∨ Y.ptr + Y.len ≤ Z.ptr) :
    ∀ (n i : Nat) (m : Mem), i + n = Y.len → Y.len ≤ Z.len → Y.len ≤ X.len →
      Z.ptr + Z.len ≤ m.length → X.ptr + X.len ≤ m.length → Y.ptr + Y.len ≤ m.length →
      ∃ m', XorBytes.loop Z X Y n i m = .ok m' () ∧ m'.length = m.length ∧
        (∀ a, a < Z.ptr + i ∨ Z.ptr + i + n ≤ a → m'.getD a 0 = m.getD a 0) ∧
        (∀ j, j < n → m'.getD (Z.ptr + i + j) 0 =
          m.getD (X.ptr + i + j) 0 ^^^ m.getD (Y.ptr + i + j) 0) := by
  intro n
  induction n with
  | zero =>
    intro i m _ _ _ _ _ _
    exact ⟨m, rfl, rfl, fun _ _ => rfl, fun j hj => absurd hj (Nat.not_lt_zero j)⟩
  | succ n ih =>
    intro i m hin hYZ hYX hZ hX hY
    have hlen : Z.ptr + i < m.length := by omega
    obtain ⟨m', hrun, hl, hframe, hval⟩ :=
      ih (i + 1) (m.set (Z.ptr + i) (m.getD (X.ptr + i) 0 ^^^ m.getD (Y.ptr + i) 0))
        (by omega) hYZ hYX (by simpa using hZ) (by simpa using hX) (by simpa using hY)
    refine ⟨m', ?_, ?_, ?_, ?_⟩
    · simp only [XorBytes.loop, Slice.get_ok X m i (by omega) hX,
        Slice.get_ok Y m i (by omega) hY, Slice.set_ok Z m i _ (by omega) hZ, hrun]
    · simpa using hl
    · intro a ha
      rw [hframe a (by omega), getD_set _ _ _ _ hlen, if_neg (by omega)]
    · intro j hj
      cases j with
      | zero =>
        rw [Nat.add_zero, Nat.add_zero, Nat.add_zero, hframe _ (by omega),
          getD_set _ _ _ _ hlen, if_pos rfl]
      | succ j =>
        have h := hval j (by omega)
        have e0 : Z.ptr + (i + 1) + j = Z.ptr + i + (j + 1) := by omega
        have e1 : X.ptr + (i + 1) + j = X.ptr + i + (j + 1) := by omega
        have e2 : Y.ptr + (i + 1) + j = Y.ptr + i + (j + 1) := by omega
        rw [e0, e1, e2, getD_set _ _ _ _ hlen, if_neg (by omega), getD_set _ _ _ _ hlen,
          if_neg (by omega)] at h
        exact h

/-- C8 (as amended): for `X` and `Y` in separate storage with
`len(X) >= len(Y)`, `XorBytesMut(X, Y)` does not panic and leaves `X` with the
same length, `X[i] = old X[i] XOR Y[i]` for every `i < len(Y)`, `X[i]`
unchanged for every `i >= len(Y)`, and `Y` unchanged. -/
theorem XorBytesMut_spec (m : Mem) (X Y : Slice) (hX : X.valid m) (hY : Y.valid m)
    (hlen : Y.len ≤ X.len) (hsep : X.separate Y) :
    ∃ m', XorBytesMut m X Y = .ok m' () ∧
      (X.bytes m').length = (X.bytes m).length ∧
      (∀ i, i < Y.len → ∃ x y, X.get m i = some x ∧ Y.get m i = some y ∧
        X.get m' i = some (x ^^^ y)) ∧
      (∀ i, Y.len ≤ i → X.get m' i = X.get m i) ∧
      Y.bytes m' = Y.bytes m := by
  have hX' : X.ptr + X.len ≤ m.length := by have := hX.1; have := hX.2; omega
  have hY' : Y.ptr + Y.len ≤ m.length := by have := hY.1; have := hY.2; omega
  have H : X.ptr ≤ Y.ptr ∨ Y.ptr + Y.len ≤ X.ptr := by
    rcases hsep with h | h
    · exact Or.inl (by omega)
    · exact Or.inr h
  obtain ⟨m', hrun, hl, hframe, hval⟩ :=
    XorBytesMut_loop_ok X Y H Y.len 0 m (by omega) hlen hX' hY'
  refine ⟨m', hrun, ?_, ?_, ?_, ?_⟩
  · rw [bytes_length X m' (by omega), bytes_length X m hX']
  · intro i hi
    refine ⟨_, _, Slice.get_ok X m i (by omega) hX', Slice.get_ok Y m i hi hY', ?_⟩
    have := hval i hi
    simp only [Nat.add_zero] at this
    rw [Slice.get_ok X m' i (by omega) (by omega), this]
  · intro i hi
    by_cases hiX : i < X.len
    · rw [Slice.get_ok X m' i hiX (by omega), Slice.get_ok X m i hiX hX',
        hframe _ (Or.inr (by omega))]
    · simp [Slice.get, hiX]
  · apply bytes_frame Y m m' hl hY'
    intro k hk
    apply hframe
    rcases hsep with h | h
    · exact Or.inr (by omega)
    · exact Or.inl (by omega)

theorem XorBytesMut_spec_witness :
    (Slice.mk 0 3 3).valid [1, 2, 3, 4, 5] ∧ (Slice.mk 3 2 2).valid [1, 2, 3, 4, 5] ∧
    (Slice.mk 3 2 2).len ≤ (Slice.mk 0 3 3).len ∧ (Slice.mk 0 3 3).separate (Slice.mk 3 2 2) ∧
    ∃ m', XorBytesMut [1, 2, 3, 4, 5] (Slice.mk 0 3 3) (Slice.mk 3 2 2) = .ok m' () ∧
      ((Slice.mk 0 3 3).bytes m').length = ((Slice.mk 0 3 3).bytes [1, 2, 3, 4, 5]).length ∧
      (∀ i, i < (Slice.mk 3 2 2).len → ∃ x y, (Slice.mk 0 3 3).get [1, 2, 3, 4, 5] i = some x ∧
        (Slice.mk 3 2 2).get [1, 2, 3, 4, 5] i = some y ∧
        (Slice.mk 0 3 3).get m' i = some (x ^^^ y)) ∧
      (∀ i, (Slice.mk 3 2 2).len ≤ i →
        (Slice.mk 0 3 3).get m' i = (Slice.mk 0 3 3).get [1, 2, 3, 4, 5] i) ∧
      (Slice.mk 3 2 2).bytes m' = (Slice.mk 3 2 2).bytes [1, 2, 3, 4, 5] :=
  ⟨by decide, by decide, by decide, by decide,
    XorBytesMut_spec [1, 2, 3, 4, 5] (Slice.mk 0 3 3) (Slice.mk 3 2 2)
      (by decide) (by decide) (by decide) (by decide)⟩

/-- C8 (as stated) fails when `X` and `Y` are the same slice: on the one-byte
buffer `[0x01]`, `XorBytesMut(X, X)` returns normally and leaves `[0x00]`, so
`Y` (which is `X`) has changed. -/
theorem XorBytesMut_aliased :
    (Slice.mk 0 1 1).len ≤ (Slice.mk 0 1 1).len ∧
    XorBytesMut [0x01] (Slice.mk 0 1 1) (Slice.mk 0 1 1) = .ok [0x00] () ∧
    (Slice.mk 0 1 1).bytes [0x00] ≠ (Slice.mk 0 1 1).bytes [0x01] := by
  decide

/-- C9: for `Z`, `X`, `Y` with `len(Z) >= len(Y)`, `len(X) >= len(Y)` and `Z`
in storage separate from `X` and from `Y`, `XorBytes(Z, X, Y)` does not panic
and leaves `Z[i] = X[i] XOR Y[i]` for every `i < len(Y)`, `Z[i]` unchanged for
every `i >= len(Y)`, and `X` and `Y` unchanged. -/
theorem XorBytes_spec (m : Mem) (Z X Y : Slice) (hZ : Z.valid m) (hX : X.valid m)
    (hY : Y.valid m) (hlenZ : Y.len ≤ Z.len) (hlenX : Y.len ≤ X.len)
    (hZX : Z.separate X) (hZY : Z.separate Y) :
    ∃ m', XorBytes m Z X Y = .ok m' () ∧
      (∀ i, i < Y.len → ∃ x y, X.get m i = some x ∧ Y.get m i = some y ∧
        Z.get m' i = some (x ^^^ y)) ∧
      (∀ i, Y.len ≤ i → Z.get m' i = Z.get m i) ∧
      X.bytes m' = X.bytes m ∧ Y.bytes m' = Y.bytes m := by
  have hZ' : Z.ptr + Z.len ≤ m.length := by have := hZ.1; have := hZ.2; omega
  have hX' : X.ptr + X.len ≤ m.length := by have := hX.1; have := hX.2; omega
  have hY' : Y.ptr + Y.len ≤ m.length := by have := hY.1; have := hY.2; omega
  have HX : Z.ptr ≤ X.ptr ∨ X.ptr + X.len ≤ Z.ptr := by
    rcases hZX with h | h
    · exact Or.inl (by omega)
    · exact Or.inr h
  have HY : Z.ptr ≤ Y.ptr ∨ Y.ptr + Y.len ≤ Z.ptr := by
    rcases hZY with h | h
    · exact Or.inl (by omega)
    · exact Or.inr h
  obtain ⟨m', hrun, hl, hframe, hval⟩ :=
    XorBytes_loop_ok Z X Y HX HY Y.len 0 m (by omega) hlenZ hlenX hZ' hX' hY'
  refine ⟨m', hrun, ?_, ?_, ?_, ?_⟩
  · intro i hi
    refine ⟨_, _, Slice.get_ok X m i (by omega) hX', Slice.get_ok Y m i hi hY', ?_⟩
    have := hval i hi
    simp only [Nat.add_zero] at this
    rw [Slice.get_ok Z m' i (by omega) (by omega), this]
  · intro i hi
    by_cases hiZ : i < Z.len
    · rw [Slice.get_ok Z m' i hiZ (by omega), Slice.get_ok Z m i hiZ hZ',
        hframe _ (Or.inr (by omega))]
    · simp [Slice.get, hiZ]
  · apply bytes_frame X m m' hl hX'
    intro k hk
    apply hframe
    rcases hZX with h | h
    · exact Or.inr (by omega)
    · exact Or.inl (by omega)
  · apply bytes_frame Y m m' hl hY'
    intro k hk
    apply hframe
    rcases hZY with h | h
    · exact Or.inr (by omega)
    · exact Or.inl (by omega)

theorem XorBytes_spec_witness :
    (Slice.mk 5 3 3).valid [1, 2, 3, 4, 5, 9, 9, 9] ∧
    (Slice.mk 0 3 3).valid [1, 2, 3, 4, 5, 9, 9, 9] ∧
    (Slice.mk 3 2 2).valid [1, 2, 3, 4, 5, 9, 9, 9] ∧
    (Slice.mk 3 2 2).len ≤ (Slice.mk 5 3 3).len ∧ (Slice.mk 3 2 2).len ≤ (Slice.mk 0 3 3).len ∧
    (Slice.mk 5 3 3).separate (Slice.mk 0 3 3) ∧ (Slice.mk 5 3 3).separate (Slice.mk 3 2 2) ∧
    ∃ m', XorBytes [1, 2, 3, 4, 5, 9, 9, 9] (Slice.mk 5 3 3) (Slice.mk 0 3 3) (Slice.mk 3 2 2)
        = .ok m' () ∧
      (∀ i, i < (Slice.mk 3 2 2).len → ∃ x y,
        (Slice.mk 0 3 3).get [1, 2, 3, 4, 5, 9, 9, 9] i = some x ∧
        (Slice.mk 3 2 2).get [1, 2, 3, 4, 5, 9, 9, 9] i = some y ∧
        (Slice.mk 5 3 3).get m' i = some (x ^^^ y)) ∧
      (∀ i, (Slice.mk 3 2 2).len ≤ i →
        (Slice.mk 5 3 3).get m' i = (Slice.mk 5 3 3).get [1, 2, 3, 4, 5, 9, 9, 9] i) ∧
      (Slice.mk 0 3 3).bytes m' = (Slice.mk 0 3 3).bytes [1, 2, 3, 4, 5, 9, 9, 9] ∧
      (Slice.mk 3 2 2).bytes m' = (Slice.mk 3 2 2).bytes [1, 2, 3, 4, 5, 9, 9, 9] :=
  ⟨by decide, by decide, by decide, by decide, by decide, by decide, by decide,
    XorBytes_spec [1, 2, 3, 4, 5, 9, 9, 9] (Slice.mk 5 3 3) (Slice.mk 0 3 3) (Slice.mk 3 2 2)
      (by decide) (by decide) (by decide) (by decide) (by decide) (by decide) (by decide)⟩

theorem Slice.getI_nat (s : Slice) (m : Mem) (a b : Nat) :
    s.getI m ((a : Int) + (b : Int)) = s.get m (a + b) := by
  have h : (0 : Int) ≤ (a : Int) + (b : Int) := by omega
  have e : ((a : Int) + (b : Int)).toNat = a + b := by omega
  simp only [Slice.getI, if_pos h, e]

theorem Slice.setI_nat (s : Slice) (m : Mem) (a b v : Nat) :
    s.setI m ((a : Int) + (b : Int)) v = s.set m (a + b) v := by
  have h : (0 : Int) ≤ (a : Int) + (b : Int) := by omega
  have e : ((a : Int) + (b : Int)).toNat = a + b := by omega
  simp only [Slice.setI, if_pos h, e]

theorem RightXor_loop_ok (xored Y : Slice) (off : Nat) (hsep : Y.ptr + Y.len ≤ xored.ptr) :
    ∀ (n i : Nat) (m : Mem), i + n = Y.len → off + Y.len ≤ xored.len →
      xored.ptr + xored.len ≤ m.length →
      ∃ m', RightXor.loop xored Y (off : Int) n i m = .ok m' () ∧ m'.length = m.length ∧
        (∀ a, a < xored.ptr + (off + i) ∨ xored.ptr + (off + i) + n ≤ a →
          m'.getD a 0 = m.getD a 0) ∧
        (∀ j, j < n → m'.getD (xored.ptr + (off + i) + j) 0 =
          m.getD (xored.ptr + (off + i) + j) 0 ^^^ m.getD (Y.ptr + i + j) 0) := by
  intro n
  induction n with
  | zero =>
    intro i m _ _ _
    exact ⟨m, rfl, rfl, fun _ _ => rfl, fun j hj => absurd hj (Nat.not_lt_zero j)⟩
  | succ n ih =>
    intro i m hin hoff hx
    have hlen : xored.ptr + (off + i) < m.length := by omega
    obtain ⟨m', hrun, hl, hframe, hval⟩ :=
      ih (i + 1) (m.set (xored.ptr + (off + i))
          (m.getD (xored.ptr + (off + i)) 0 ^^^ m.getD (Y.ptr + i) 0))
        (by omega) hoff (by simpa using hx)
    refine ⟨m', ?_, ?_, ?_, ?_⟩
    · simp only [RightXor.loop, Slice.getI_nat, Slice.setI_nat,
        Slice.get_ok xored m (off + i) (by omega) hx,
        Slice.get_ok Y m i (by omega) (by omega),
        Slice.set_ok xored m (off + i) _ (by omega) hx, hrun]
    · simpa using hl
    · intro a ha
      rw [hframe a (by omega), getD_set _ _ _ _ hlen, if_neg (by omega)]
    · intro j hj
      cases j with
      | zero =>
        rw [Nat.add_zero, Nat.add_zero, hframe _ (by omega), getD_set _ _ _ _ hlen, if_pos rfl]
      | succ j =>
        have h := hval j (by omega)
        have e1 : xored.ptr + (off + (i + 1)) + j = xored.ptr + (off + i) + (j + 1) := by omega
        have e2 : Y.ptr + (i + 1) + j = Y.ptr + i + (j + 1) := by omega
        rw [e1, e2, getD_set _ _ _ _ hlen, if_neg (by omega), getD_set _ _ _ _ hlen,
          if_neg (by omega)] at h
        exact h

theorem bytes_append_left (s : Slice) (m r : Mem) (hs : s.ptr + s.len ≤ m.length) :
    s.bytes (m ++ r) = s.bytes m := by
  apply ext_getD
  · rw [bytes_length _ _ (by simp; omega), bytes_length s m hs]
  · intro k hk
    rw [bytes_length _ _ (by simp; omega)] at hk
    rw [bytes_getD _ _ k hk, bytes_getD _ _ k hk, getD_append_left _ _ _ (by omega)]

theorem copy_fresh (m : Mem) (X : Slice) (hX : X.ptr + X.len ≤ m.length) :
    copy (m ++ List.replicate X.len 0) ⟨m.length, X.len, X.len⟩ X = m ++ X.bytes m := by
  have hl := bytes_length X m hX
  unfold copy Mem.write
  rw [bytes_append_left X m _ hX]
  have e : List.take X.len (X.bytes m) = X.bytes m := by
    rw [List.take_of_length_le (by omega)]
  simp only [e, hl]
  rw [List.take_left' rfl, List.drop_eq_nil_of_le (by simp), List.append_nil]

theorem RightXor_ok (m : Mem) (X Y : Slice) (hX : X.ptr + X.len ≤ m.length)
    (hY : Y.ptr + Y.len ≤ m.length) (hlen : Y.len ≤ X.len) :
    RightXor m X Y = .ok (m ++ xorLow (X.bytes m) (Y.bytes m)) ⟨m.length, X.len, X.len⟩ := by
  have hXl := bytes_length X m hX
  have hYl := bytes_length Y m hY
  obtain ⟨m3, hrun, hl, hframe, hval⟩ :=
    RightXor_loop_ok ⟨m.length, X.len, X.len⟩ Y (X.len - Y.len) hY Y.len 0 (m ++ X.bytes m)
      (by omega) (by simp; omega) (by simp [hXl])
  have hoff : (X.len : Int) - (Y.len : Int) = ((X.len - Y.len : Nat) : Int) := by omega
  have hm3 : m3 = m ++ xorLow (X.bytes m) (Y.bytes m) := by
    apply ext_getD
    · rw [hl, List.length_append, List.length_append, xorLow_length _ _ (by omega)]
    · intro a ha
      rw [hl, List.length_append, hXl] at ha
      by_cases ham : a < m.length
      · rw [hframe a (Or.inl (by simp; omega)), getD_append_left _ _ _ ham,
          getD_append_left _ _ _ ham]
      · obtain ⟨k, rfl⟩ : ∃ k, a = m.length + k := ⟨a - m.length, by omega⟩
        have hk : k < X.len := by omega
        rw [getD_append_right, xorLow_getD _ _ (by omega) k (by omega), hXl, hYl]
        by_cases hko : k < X.len - Y.len
        · rw [if_pos hko, hframe _ (Or.inl (by simp; omega)), getD_append_right]
        · obtain ⟨j, rfl⟩ : ∃ j, k = (X.len - Y.len) + j := ⟨k - (X.len - Y.len), by omega⟩
          have h3 := hval j (by omega)
          simp only [Nat.add_zero] at h3
          rw [if_neg hko, ← Nat.add_assoc, h3, Nat.add_assoc, getD_append_right,
            getD_append_left _ _ _ (by omega), Nat.add_sub_cancel_left,
            bytes_getD Y m j (by omega)]
  simp only [RightXor, make, copy_fresh m X hX, hoff, hrun, hm3]

/-- C10: for `X`, `Y` with `len(X) >= len(Y)`, `RightXor(X, Y)` returns a
buffer `R` of length `len(X)` in newly allocated storage, with `R[i] = X[i]`
for `i < len(X) - len(Y)` and `R[len(X)-len(Y)+j] = X[len(X)-len(Y)+j] XOR Y[j]`
for `j < len(Y)`; nothing allocated before the call is modified, so `X` and
`Y` keep their contents. -/
theorem RightXor_spec (m : Mem) (X Y : Slice) (hX : X.valid m) (hY : Y.valid m)
    (hlen : Y.len ≤ X.len) :
    ∃ m' R, RightXor m X Y = .ok m' R ∧ R.len = X.len ∧ R.ptr = m.length ∧
      m' = m ++ R.bytes m' ∧
      (∀ i, i < X.len - Y.len → ∃ x, X.get m i = some x ∧ R.get m' i = some x) ∧
      (∀ j, j < Y.len → ∃ x y, X.get m (X.len - Y.len + j) = some x ∧ Y.get m j = some y ∧
        R.get m' (X.len - Y.len + j) = some (x ^^^ y)) ∧
      X.bytes m' = X.bytes m ∧ Y.bytes m' = Y.bytes m := by
  have hX' : X.ptr + X.len ≤ m.length := by have := hX.1; have := hX.2; omega
  have hY' : Y.ptr + Y.len ≤ m.length := by have := hY.1; have := hY.2; omega
  have hXl := bytes_length X m hX'
  have hYl := bytes_length Y m hY'
  have hrl : (xorLow (X.bytes m) (Y.bytes m)).length = X.len := by
    rw [xorLow_length _ _ (by omega), hXl]
  have hget : ∀ k, k < X.len →
      (Slice.mk m.length X.len X.len).get (m ++ xorLow (X.bytes m) (Y.bytes m)) k
        = some ((xorLow (X.bytes m) (Y.bytes m)).getD k 0) := by
    intro k hk
    have h := Slice.get_ok (Slice.mk m.length X.len X.len)
      (m ++ xorLow (X.bytes m) (Y.bytes m)) k hk (by simp [hrl])
    rw [h]
    exact congrArg some (getD_append_right m _ k)
  refine ⟨_, _, RightXor_ok m X Y hX' hY' hlen, rfl, rfl, ?_, ?_, ?_, ?_, ?_⟩
  · rw [out_bytes _ _ _ hrl]
  · intro i hi
    refine ⟨_, Slice.get_ok X m i (by omega) hX', ?_⟩
    rw [hget i (by omega), xorLow_getD _ _ (by omega) i (by omega), hXl, hYl, if_pos hi,
      bytes_getD X m i (by omega)]
  · intro j hj
    refine ⟨_, _, Slice.get_ok X m _ (by omega) hX', Slice.get_ok Y m j hj hY', ?_⟩
    rw [hget _ (by omega), xorLow_getD _ _ (by omega) _ (by omega), hXl, hYl,
      if_neg (by omega), bytes_getD X m _ (by omega), Nat.add_sub_cancel_left,
      bytes_getD Y m j hj]
  · exact bytes_append_left X m _ hX'
  · exact bytes_append_left Y m _ hY'

theorem RightXor_spec_witness :
    (Slice.mk 0 3 3).valid [1, 2, 3, 4, 5] ∧ (Slice.mk 1 2 4).valid [1, 2, 3, 4, 5] ∧
    (Slice.mk 1 2 4).len ≤ (Slice.mk 0 3 3).len ∧
    ∃ m' R, RightXor [1, 2, 3, 4, 5] (Slice.mk 0 3 3) (Slice.mk 1 2 4) = .ok m' R ∧
      R.len = (Slice.mk 0 3 3).len ∧ R.ptr = [1, 2, 3, 4, 5].length ∧
      m' = [1, 2, 3, 4, 5] ++ R.bytes m' ∧
      (∀ i, i < (Slice.mk 0 3 3).len - (Slice.mk 1 2 4).len →
        ∃ x, (Slice.mk 0 3 3).get [1, 2, 3, 4, 5] i = some x ∧ R.get m' i = some x) ∧
      (∀ j, j < (Slice.mk 1 2 4).len → ∃ x y,
        (Slice.mk 0 3 3).get [1, 2, 3, 4, 5]
          ((Slice.mk 0 3 3).len - (Slice.mk 1 2 4).len + j) = some x ∧
        (Slice.mk 1 2 4).get [1, 2, 3, 4, 5] j = some y ∧
        R.get m' ((Slice.mk 0 3 3).len - (Slice.mk 1 2 4).len + j) = some (x ^^^ y)) ∧
      (Slice.mk 0 3 3).bytes m' = (Slice.mk 0 3 3).bytes [1, 2, 3, 4, 5] ∧
      (Slice.mk 1 2 4).bytes m' = (Slice.mk 1 2 4).bytes [1, 2, 3, 4, 5] :=
  ⟨by decide, by decide, by decide,
    RightXor_spec [1, 2, 3, 4, 5] (Slice.mk 0 3 3) (Slice.mk 1 2 4)
      (by decide) (by decide) (by decide)⟩

theorem xor_cancel_right (x y : Nat) : (x ^^^ y) ^^^ y = x := by
  rw [Nat.xor_assoc, Nat.xor_self, Nat.xor_zero]

/-- C11 (as amended): for `X` and `Y` in separate storage with
`len(X) >= len(Y)`, applying `XorBytesMut(X, Y)` twice in succession returns
normally both times and restores `X` (indeed the whole heap) to exactly its
original contents. -/
theorem XorBytesMut_twice (m : Mem) (X Y : Slice) (hX : X.valid m) (hY : Y.valid m)
    (hlen : Y.len ≤ X.len) (hsep : X.separate Y) :
    ∃ m1 m2, XorBytesMut m X Y = .ok m1 () ∧ XorBytesMut m1 X Y = .ok m2 () ∧
      X.bytes m2 = X.bytes m ∧ m2 = m := by
  have hX' : X.ptr + X.len ≤ m.length := by have := hX.1; have := hX.2; omega
  have hY' : Y.ptr + Y.len ≤ m.length := by have := hY.1; have := hY.2; omega
  have H : X.ptr ≤ Y.ptr ∨ Y.ptr + Y.len ≤ X.ptr := by
    rcases hsep with h | h
    · exact Or.inl (by omega)
    · exact Or.inr h
  obtain ⟨m1, hrun1, hl1, hframe1, hval1⟩ :=
    XorBytesMut_loop_ok X Y H Y.len 0 m (by omega) hlen hX' hY'
  obtain ⟨m2, hrun2, hl2, hframe2, hval2⟩ :=
    XorBytesMut_loop_ok X Y H Y.len 0 m1 (by omega) hlen (by omega) (by omega)
  have hm : m2 = m := by
    apply ext_getD _ _ (by omega)
    intro a _
    by_cases ha : X.ptr ≤ a ∧ a < X.ptr + Y.len
    · obtain ⟨j, rfl⟩ : ∃ j, a = X.ptr + 0 + j := ⟨a - X.ptr, by omega⟩
      have hj : j < Y.len := by omega
      have hy : m1.getD (Y.ptr + 0 + j) 0 = m.getD (Y.ptr + 0 + j) 0 := by
        apply hframe1
        rcases hsep with h | h
        · exact Or.inr (by omega)
        · exact Or.inl (by omega)
      rw [hval2 j hj, hval1 j hj, hy, xor_cancel_right]
    · rw [hframe2 a (by omega), hframe1 a (by omega)]
  exact ⟨m1, m2, hrun1, hrun2, by rw [hm], hm⟩

theorem XorBytesMut_twice_witness :
    (Slice.mk 0 3 3).valid [1, 2, 3, 4, 5] ∧ (Slice.mk 3 2 2).valid [1, 2, 3, 4, 5] ∧
    (Slice.mk 3 2 2).len ≤ (Slice.mk 0 3 3).len ∧ (Slice.mk 0 3 3).separate (Slice.mk 3 2 2) ∧
    ∃ m1 m2, XorBytesMut [1, 2, 3, 4, 5] (Slice.mk 0 3 3) (Slice.mk 3 2 2) = .ok m1 () ∧
      XorBytesMut m1 (Slice.mk 0 3 3) (Slice.mk 3 2 2) = .ok m2 () ∧
      (Slice.mk 0 3 3).bytes m2 = (Slice.mk 0 3 3).bytes [1, 2, 3, 4, 5] ∧
      m2 = [1, 2, 3, 4, 5] :=
  ⟨by decide, by decide, by decide, by decide,
    XorBytesMut_twice [1, 2, 3, 4, 5] (Slice.mk 0 3 3) (Slice.mk 3 2 2)
      (by decide) (by decide) (by decide) (by decide)⟩

/-- C11 (as stated) fails when `X` and `Y` are the same slice: on the buffer
`[0x05, 0x06]` the first `XorBytesMut(X, X)` leaves `[0x00, 0x00]` and the
second leaves it so; `X` is not restored. -/
theorem XorBytesMut_twice_aliased :
    (Slice.mk 0 2 2).len ≤ (Slice.mk 0 2 2).len ∧
    XorBytesMut [0x05, 0x06] (Slice.mk 0 2 2) (Slice.mk 0 2 2) = .ok [0x00, 0x00] () ∧
    XorBytesMut [0x00, 0x00] (Slice.mk 0 2 2) (Slice.mk 0 2 2) = .ok [0x00, 0x00] () ∧
    (Slice.mk 0 2 2).bytes [0x00, 0x00] ≠ (Slice.mk 0 2 2).bytes [0x05, 0x06] := by
  decide

theorem wrapInt_small (k : Nat) (hk : k < 2 ^ 63) : wrapInt (k : Int) = (k : Int) := by
  unfold wrapInt
  omega

theorem SliceForAppend_reuse (m : Mem) (inp : Slice) (n : Nat) (hno : inp.len + n < 2 ^ 63)
    (h : inp.len + n ≤ inp.cap) :
    SliceForAppend m inp (n : Int) =
      .ok m (⟨inp.ptr, inp.len + n, inp.cap⟩, ⟨inp.ptr + inp.len, n, inp.cap - inp.len⟩) := by
  have hw : wrapInt ((inp.len : Int) + (n : Int)) = (inp.len : Int) + (n : Int) := by
    have := wrapInt_small (inp.len + n) hno
    rwa [Nat.cast_add] at this
  have h1 : (inp.len : Int) + (n : Int) ≤ (inp.cap : Int) := by omega
  have h2 : ¬ ((inp.len : Int) + (n : Int) < 0) := by omega
  have e : ((inp.len : Int) + (n : Int)).toNat = inp.len + n := by omega
  have e3 : inp.len + n - inp.len = n := by omega
  have e4 : inp.len ≤ inp.len + n := by omega
  unfold SliceForAppend
  rw [hw]
  simp only [if_pos h1, if_neg h2, e, if_pos e4, e3]

theorem SliceForAppend_alloc (m : Mem) (inp : Slice) (n : Nat) (hv : inp.valid m)
    (hno : inp.len + n < 2 ^ 63) (h : inp.cap < inp.len + n) :
    SliceForAppend m inp (n : Int) =
      .ok (m ++ (inp.bytes m ++ List.replicate n 0))
        (⟨m.length, inp.len + n, inp.len + n⟩, ⟨m.length + inp.len, n, n⟩) := by
  have hs : inp.ptr + inp.len ≤ m.length := by have := hv.1; have := hv.2; omega
  have hl := bytes_length inp m hs
  have hw : wrapInt ((inp.len : Int) + (n : Int)) = (inp.len : Int) + (n : Int) := by
    have := wrapInt_small (inp.len + n) hno
    rwa [Nat.cast_add] at this
  have h1 : ¬ ((inp.len : Int) + (n : Int) ≤ (inp.cap : Int)) := by omega
  have e : ((inp.len : Int) + (n : Int)).toNat = inp.len + n := by omega
  have t0 : List.take (inp.len + n) (inp.bytes m) = inp.bytes m :=
    List.take_of_length_le (by omega)
  have t1 : List.take m.length (m ++ List.replicate (inp.len + n) 0) = m :=
    List.take_left' rfl
  have t2 : List.drop (m.length + inp.len) (m ++ List.replicate (inp.len + n) 0)
      = List.replicate n 0 := by
    rw [List.drop_append, List.drop_replicate, Nat.add_sub_cancel_left]
  have hcopy : copy (m ++ List.replicate (inp.len + n) 0) ⟨m.length, inp.len + n, inp.len + n⟩ inp
      = m ++ (inp.bytes m ++ List.replicate n 0) := by
    show List.take m.length (m ++ List.replicate (inp.len + n) 0)
        ++ List.take (inp.len + n) (inp.bytes (m ++ List.replicate (inp.len + n) 0))
        ++ List.drop (m.length + (List.take (inp.len + n)
            (inp.bytes (m ++ List.replicate (inp.len + n) 0))).length)
            (m ++ List.replicate (inp.len + n) 0) = _
    rw [bytes_append_left inp m _ hs, t0, t1, hl, t2, List.append_assoc]
  have e3 : inp.len + n - inp.len = n := by omega
  have e4 : inp.len ≤ inp.len + n := by omega
  unfold SliceForAppend
  rw [hw]
  simp only [if_neg h1, e, make, hcopy, if_pos e4, e3]

theorem set_then_get (m : Mem) (head tail : Slice) (k j v : Nat)
    (hp : tail.ptr = head.ptr + k) (hj : j < tail.len) (hk : k + j < head.len)
    (hh : head.ptr + head.len ≤ m.length) (ht : tail.ptr + tail.len ≤ m.length) :
    ∃ m'', tail.set m j v = some m'' ∧ head.get m'' (k + j) = some v := by
  refine ⟨_, Slice.set_ok tail m j v hj ht, ?_⟩
  rw [Slice.get_ok head _ (k + j) hk (by simpa using hh),
    getD_set _ _ _ _ (by omega), if_pos (by omega)]

theorem take_bytes (s : Slice) (m : Mem) (k : Nat) (hk : k ≤ s.len) :
    (s.bytes m).take k = (Slice.mk s.ptr k s.cap).bytes m := by
  simp [Slice.bytes, List.take_take, Nat.min_eq_left hk]

/-- C12 (as amended): for every slice `in` and every `n >= 0` such that
`len(in) + n` does not overflow `int` (`len(in) + n < 2^63`),
`SliceForAppend(in, n)` returns `(head, tail)` with
`len(head) = len(in) + n`, `head[:len(in)]` equal to the original contents of
`in`, `len(tail) = n`, and `tail` aliasing
`head[len(in):]`: after writing a byte to `tail[j]`, `head[len(in)+j]` holds
that byte, for every `j < n`.  This holds in the reuse branch and in the
reallocation branch alike. -/
theorem SliceForAppend_spec (m : Mem) (inp : Slice) (n : Nat) (hv : inp.valid m)
    (hno : inp.len + n < 2 ^ 63) :
    ∃ m' head tail, SliceForAppend m inp (n : Int) = .ok m' (head, tail) ∧
      head.len = inp.len + n ∧ tail.len = n ∧ head.valid m' ∧ tail.valid m' ∧
      (head.bytes m').take inp.len = inp.bytes m ∧
      (∀ j v, j < n → ∃ m'', tail.set m' j v = some m'' ∧
        head.get m'' (inp.len + j) = some v) := by
  have hs : inp.ptr + inp.len ≤ m.length := by have := hv.1; have := hv.2; omega
  have hl := bytes_length inp m hs
  by_cases h : inp.len + n ≤ inp.cap
  · refine ⟨m, _, _, SliceForAppend_reuse m inp n hno h, rfl, rfl, ?_, ?_, ?_, ?_⟩
    · exact ⟨h, hv.2⟩
    · have := hv.2
      exact ⟨by show n ≤ inp.cap - inp.len; omega,
        by show inp.ptr + inp.len + (inp.cap - inp.len) ≤ m.length; omega⟩
    · rw [take_bytes _ _ _ (by show inp.len ≤ inp.len + n; omega)]
    · intro j v hj
      have := hv.2
      exact set_then_get m _ _ inp.len j v rfl hj (by show inp.len + j < inp.len + n; omega)
        (by show inp.ptr + (inp.len + n) ≤ m.length; omega)
        (by show inp.ptr + inp.len + n ≤ m.length; omega)
  · have h' : inp.cap < inp.len + n := by omega
    have hbl : (inp.bytes m ++ List.replicate n 0).length = inp.len + n := by simp [hl]
    refine ⟨_, _, _, SliceForAppend_alloc m inp n hv hno h', rfl, rfl, ?_, ?_, ?_, ?_⟩
    · exact ⟨Nat.le_refl _, by simp [hl]⟩
    · exact ⟨Nat.le_refl _, by simp [hl]; omega⟩
    · rw [out_bytes _ _ _ hbl, List.take_left' hl]
    · intro j v hj
      exact set_then_get _ _ _ inp.len j v rfl hj (by show inp.len + j < inp.len + n; omega)
        (by simp [hl]) (by simp [hl]; omega)

theorem SliceForAppend_spec_witness :
    (Slice.mk 1 2 3).valid [9, 1, 2, 7, 8] ∧ (Slice.mk 1 2 3).len + 2 < 2 ^ 63 ∧
    ∃ m' head tail, SliceForAppend [9, 1, 2, 7, 8] (Slice.mk 1 2 3) ((2 : Nat) : Int)
        = .ok m' (head, tail) ∧
      head.len = (Slice.mk 1 2 3).len + 2 ∧ tail.len = 2 ∧ head.valid m' ∧ tail.valid m' ∧
      (head.bytes m').take (Slice.mk 1 2 3).len = (Slice.mk 1 2 3).bytes [9, 1, 2, 7, 8] ∧
      (∀ j v, j < 2 → ∃ m'', tail.set m' j v = some m'' ∧
        head.get m'' ((Slice.mk 1 2 3).len + j) = some v) :=
  ⟨by decide, by decide,
    SliceForAppend_spec [9, 1, 2, 7, 8] (Slice.mk 1 2 3) 2 (by decide) (by decide)⟩

/-- C12 (as stated) fails when `len(in) + n` overflows `int`: for the one-byte
slice `[0x07]` with capacity 1 and `n = 2^63 - 1` (the largest `int`), the sum
wraps to `-2^63`, the test `cap(in) >= total` succeeds and `in[:total]` panics;
no `(head, tail)` is returned. -/
theorem SliceForAppend_overflow :
    (Slice.mk 0 1 1).valid [0x07] ∧ (0 : Int) ≤ 9223372036854775807 ∧
    wrapInt (((Slice.mk 0 1 1).len : Int) + 9223372036854775807) = -9223372036854775808 ∧
    SliceForAppend [0x07] (Slice.mk 0 1 1) 9223372036854775807 = .fault [0x07] := by
  decide

/-- C17 (as amended): for every slice `in` and `n >= 0` such that
`len(in) + n` does not overflow `int` (`len(in) + n < 2^63`),
`SliceForAppend(in, n)` reuses the storage of `in` exactly when
`cap(in) >= len(in) + n`.  In that case nothing is allocated or copied, `head` is `in[:len(in)+n]` over the same storage, and a
write to `head[i]` with `i < len(in)` is visible as `in[i]`.  Otherwise `head`
is a newly allocated buffer of length `len(in)+n` holding the contents of `in`
followed by `n` zero bytes, and a write to `head` leaves `in` unchanged. -/
theorem SliceForAppend_reuse_iff (m : Mem) (inp : Slice) (n : Nat) (hv : inp.valid m)
    (hno : inp.len + n < 2 ^ 63) :
    (inp.len + n ≤ inp.cap →
      ∃ tail, SliceForAppend m inp (n : Int)
          = .ok m (Slice.mk inp.ptr (inp.len + n) inp.cap, tail) ∧
        ∀ i v, i < inp.len → ∃ m'',
          (Slice.mk inp.ptr (inp.len + n) inp.cap).set m i v = some m'' ∧
          inp.get m'' i = some v) ∧
    (inp.cap < inp.len + n →
      ∃ m' head tail, SliceForAppend m inp (n : Int) = .ok m' (head, tail) ∧
        head.ptr = m.length ∧ head.len = inp.len + n ∧
        m' = m ++ head.bytes m' ∧
        head.bytes m' = inp.bytes m ++ List.replicate n 0 ∧
        ∀ i v m'', head.set m' i v = some m'' → inp.bytes m'' = inp.bytes m) := by
  have hs : inp.ptr + inp.len ≤ m.length := by have := hv.1; have := hv.2; omega
  have hl := bytes_length inp m hs
  constructor
  · intro h
    refine ⟨_, SliceForAppend_reuse m inp n hno h, ?_⟩
    intro i v hi
    have := hv.2
    have := set_then_get m inp (Slice.mk inp.ptr (inp.len + n) inp.cap) 0 i v rfl
      (by show i < inp.len + n; omega) (by omega) hs
      (by show inp.ptr + (inp.len + n) ≤ m.length; omega)
    simpa using this
  · intro h
    have hbl : (inp.bytes m ++ List.replicate n 0).length = inp.len + n := by simp [hl]
    refine ⟨_, _, _, SliceForAppend_alloc m inp n hv hno h, rfl, rfl, ?_, ?_, ?_⟩
    · rw [out_bytes _ _ _ hbl]
    · rw [out_bytes _ _ _ hbl]
    · intro i v m'' hset
      unfold Slice.set at hset
      split_ifs at hset with hc
      injection hset with hset
      subst hset
      refine Eq.trans ?_ (bytes_append_left inp m (inp.bytes m ++ List.replicate n 0) hs)
      apply bytes_frame inp _ _ (by simp) (by simp; omega)
      intro k hk
      rw [getD_set _ _ _ _ hc.2, if_neg (by show ¬ inp.ptr + k = m.length + i; omega)]

theorem SliceForAppend_reuse_iff_witness :
    (Slice.mk 1 2 4).valid [9, 1, 2, 7, 8] ∧ (Slice.mk 1 2 4).len + 2 < 2 ^ 63 ∧
    ((Slice.mk 1 2 4).len + 2 ≤ (Slice.mk 1 2 4).cap →
      ∃ tail, SliceForAppend [9, 1, 2, 7, 8] (Slice.mk 1 2 4) ((2 : Nat) : Int)
          = .ok [9, 1, 2, 7, 8]
              (Slice.mk (Slice.mk 1 2 4).ptr ((Slice.mk 1 2 4).len + 2) (Slice.mk 1 2 4).cap,
                tail) ∧
        ∀ i v, i < (Slice.mk 1 2 4).len → ∃ m'',
          (Slice.mk (Slice.mk 1 2 4).ptr ((Slice.mk 1 2 4).len + 2) (Slice.mk 1 2 4).cap).set
            [9, 1, 2, 7, 8] i v = some m'' ∧
          (Slice.mk 1 2 4).get m'' i = some v) ∧
    ((Slice.mk 1 2 4).cap < (Slice.mk 1 2 4).len + 2 →
      ∃ m' head tail, SliceForAppend [9, 1, 2, 7, 8] (Slice.mk 1 2 4) ((2 : Nat) : Int)
          = .ok m' (head, tail) ∧
        head.ptr = [9, 1, 2, 7, 8].length ∧ head.len = (Slice.mk 1 2 4).len + 2 ∧
        m' = [9, 1, 2, 7, 8] ++ head.bytes m' ∧
        head.bytes m' = (Slice.mk 1 2 4).bytes [9, 1, 2, 7, 8] ++ List.replicate 2 0 ∧
        ∀ i v m'', head.set m' i v = some m'' →
          (Slice.mk 1 2 4).bytes m'' = (Slice.mk 1 2 4).bytes [9, 1, 2, 7, 8]) :=
  ⟨by decide, by decide,
    SliceForAppend_reuse_iff [9, 1, 2, 7, 8] (Slice.mk 1 2 4) 2 (by decide) (by decide)⟩

/-- C17 (as stated) fails when `len(in) + n` overflows `int`: for the two-byte
slice `[0x01, 0x02]` with capacity 3 and `n = 2^63 - 2` we have
`cap(in) < len(in) + n`, yet no buffer is allocated: the sum wraps to `-2^63`,
the test `cap(in) >= total` succeeds, and the reuse branch panics at
`in[:total]` with the heap unchanged. -/
theorem SliceForAppend_overflow_reuse_branch :
    (Slice.mk 0 2 3).valid [0x01, 0x02, 0x03] ∧ (0 : Int) ≤ 9223372036854775806 ∧
    ((Slice.mk 0 2 3).cap : Int) < ((Slice.mk 0 2 3).len : Int) + 9223372036854775806 ∧
    wrapInt (((Slice.mk 0 2 3).len : Int) + 9223372036854775806)
      ≤ ((Slice.mk 0 2 3).cap : Int) ∧
    SliceForAppend [0x01, 0x02, 0x03] (Slice.mk 0 2 3) 9223372036854775806
      = .fault [0x01, 0x02, 0x03] := by
  decide

theorem Slice.get_none (s : Slice) (m : Mem) (i : Nat) (hi : s.len ≤ i) : s.get m i = none := by
  simp [Slice.get, Nat.not_lt.mpr hi]

theorem Slice.set_none (s : Slice) (m : Mem) (i v : Nat) (hi : s.len ≤ i) :
    s.set m i v = none := by
  simp [Slice.set, Nat.not_lt.mpr hi]

theorem XorBytesMut_loop_fault (X Y : Slice) (H : X.ptr ≤ Y.ptr ∨ Y.ptr + Y.len ≤ X.ptr)
    (hlt : X.len < Y.len) :
    ∀ (n i : Nat) (m : Mem), i + n = Y.len → i ≤ X.len →
      X.ptr + X.len ≤ m.length → Y.ptr + Y.len ≤ m.length →
      ∃ m', XorBytesMut.loop X Y n i m = .fault m' ∧ m'.length = m.length ∧
        (∀ a, a < X.ptr + i ∨ X.ptr + X.len ≤ a → m'.getD a 0 = m.getD a 0) ∧
        (∀ j, i + j < X.len → m'.getD (X.ptr + i + j) 0 =
          m.getD (X.ptr + i + j) 0 ^^^ m.getD (Y.ptr + i + j) 0) := by
  intro n
  induction n with
  | zero => intro i m h1 h2; omega
  | succ n ih =>
    intro i m hin hiX hX hY
    by_cases hi : i = X.len
    · refine ⟨m, ?_, rfl, fun _ _ => rfl, fun j hj => by omega⟩
      simp only [XorBytesMut.loop, Slice.get_none X m i (by omega)]
    · have hlen : X.ptr + i < m.length := by omega
      obtain ⟨m', hrun, hl, hframe, hval⟩ :=
        ih (i + 1) (m.set (X.ptr + i) (m.getD (X.ptr + i) 0 ^^^ m.getD (Y.ptr + i) 0))
          (by omega) (by omega) (by simpa using hX) (by simpa using hY)
      refine ⟨m', ?_, ?_, ?_, ?_⟩
      · simp only [XorBytesMut.loop, Slice.get_ok X m i (by omega) hX,
          Slice.get_ok Y m i (by omega) hY, Slice.set_ok X m i _ (by omega) hX, hrun]
      · simpa using hl
      · intro a ha
        rw [hframe a (by omega), getD_set _ _ _ _ hlen, if_neg (by omega)]
      · intro j hj
        cases j with
        | zero =>
          rw [Nat.add_zero, Nat.add_zero, hframe _ (by omega), getD_set _ _ _ _ hlen,
            if_pos rfl]
        | succ j =>
          have h := hval j (by omega)
          have e1 : X.ptr + (i + 1) + j = X.ptr + i + (j + 1) := by omega
          have e2 : Y.ptr + (i + 1) + j = Y.ptr + i + (j + 1) := by omega
          rw [e1, e2, getD_set _ _ _ _ hlen, if_neg (by omega), getD_set _ _ _ _ hlen,
            if_neg (by omega)] at h
          exact h

theorem XorBytes_loop_fault (Z X Y : Slice) (HX : Z.ptr ≤ X.ptr ∨ X.ptr + X.len ≤ Z.ptr)
    (HY : Z.ptr ≤ Y.ptr ∨ Y.ptr + Y.len ≤ Z.ptr) (hlt : min Z.len X.len < Y.len) :
    ∀ (n i : Nat) (m : Mem), i + n = Y.len → i ≤ min Z.len X.len →
      Z.ptr + Z.len ≤ m.length → X.ptr + X.len ≤ m.length → Y.ptr + Y.len ≤ m.length →
      ∃ m', XorBytes.loop Z X Y n i m = .fault m' ∧ m'.length = m.length ∧
        (∀ a, a < Z.ptr + i ∨ Z.ptr + min Z.len X.len ≤ a → m'.getD a 0 = m.getD a 0) ∧
        (∀ j, i + j < min Z.len X.len → m'.getD (Z.ptr + i + j) 0 =
          m.getD (X.ptr + i + j) 0 ^^^ m.getD (Y.ptr + i + j) 0) := by
  intro n
  induction n with
  | zero => intro i m h1 h2; omega
  | succ n ih =>
    intro i m hin hik hZ hX hY
    by_cases hi : i = min Z.len X.len
    · refine ⟨m, ?_, rfl, fun _ _ => rfl, fun j hj => by omega⟩
      by_cases hxi : i < X.len
      · have hzi : Z.len ≤ i := by omega
        simp only [XorBytes.loop, Slice.get_ok X m i hxi hX,
          Slice.get_ok Y m i (by omega) hY, Slice.set_none Z m i _ hzi]
      · simp only [XorBytes.loop, Slice.get_none X m i (by omega)]
    · have hiz : i < Z.len := by omega
      have hix : i < X.len := by omega
      have hlen : Z.ptr + i < m.length := by omega
      obtain ⟨m', hrun, hl, hframe, hval⟩ :=
        ih (i + 1) (m.set (Z.ptr + i) (m.getD (X.ptr + i) 0 ^^^ m.getD (Y.ptr + i) 0))
          (by omega) (by omega) (by simpa using hZ) (by simpa using hX) (by simpa using hY)
      refine ⟨m', ?_, ?_, ?_, ?_⟩
      · simp only [XorBytes.loop, Slice.get_ok X m i hix hX,
          Slice.get_ok Y m i (by omega) hY, Slice.set_ok Z m i _ hiz hZ, hrun]
      · simpa using hl
      · intro a ha
        rw [hframe a (by omega), getD_set _ _ _ _ hlen, if_neg (by omega)]
      · intro j hj
        cases j with
        | zero =>
          rw [Nat.add_zero, Nat.add_zero, Nat.add_zero, hframe _ (by omega),
            getD_set _ _ _ _ hlen, if_pos rfl]
        | succ j =>
          have h := hval j (by omega)
          have e0 : Z.ptr + (i + 1) + j = Z.ptr + i + (j + 1) := by omega
          have e1 : X.ptr + (i + 1) + j = X.ptr + i + (j + 1) := by omega
          have e2 : Y.ptr + (i + 1) + j = Y.ptr + i + (j + 1) := by omega
          rw [e0, e1, e2, getD_set _ _ _ _ hlen, if_neg (by omega), getD_set _ _ _ _ hlen,
            if_neg (by omega)] at h
          exact h

theorem shiftLeft_fault (m : Mem) (dst src : Slice) (hs : src.ptr + src.len ≤ m.length)
    (hlt : dst.len < src.len) : shiftLeft m dst src = .fault m := by
  obtain ⟨i, hi⟩ : ∃ i, src.len = i + 1 := ⟨src.len - 1, by omega⟩
  simp only [shiftLeft, hi, shiftLeft.loop, Slice.get_ok src m i (by omega) hs,
    Slice.set_none dst m i _ (by omega)]

theorem RightXor_fault (m : Mem) (X Y : Slice) (hX : X.ptr + X.len ≤ m.length)
    (hlt : X.len < Y.len) : RightXor m X Y = .fault (m ++ X.bytes m) := by
  obtain ⟨k, hk⟩ : ∃ k, Y.len = k + 1 := ⟨Y.len - 1, by omega⟩
  have hneg : ¬ (0 : Int) ≤ (X.len : Int) - (Y.len : Int) + ((0 : Nat) : Int) := by omega
  have hg : ∀ (s : Slice) (mm : Mem),
      s.getI mm ((X.len : Int) - (Y.len : Int) + ((0 : Nat) : Int)) = none := by
    intro s mm; simp only [Slice.getI, if_neg hneg]
  simp only [RightXor, make, copy_fresh m X hX]
  rw [hk]
  simp only [RightXor.loop]
  rw [← hk, hg]

/-- C13 (as amended): `GfnDouble`, `shiftLeft` and `RightXor` fault before
modifying any existing buffer, but the in-place XOR helpers are not atomic.
With the buffers in separate storage, when `XorBytesMut(X, Y)` faults
(`len(X) < len(Y)`) it has already replaced `X[i]` by `X[i] XOR Y[i]` for
every `i < len(X)`; when `XorBytes(Z, X, Y)` faults (`len(Z) < len(Y)` or
`len(X) < len(Y)`) it has already written `Z[i] = X[i] XOR Y[i]` for every
`i < min(len(Z), len(X))`, the rest of `Z` being unchanged. -/
theorem fault_states (m : Mem) (Z X Y : Slice) (hZ : Z.valid m) (hX : X.valid m)
    (hY : Y.valid m) :
    (X.len < Y.len → X.separate Y →
      ∃ m', XorBytesMut m X Y = .fault m' ∧
        X.bytes m' = xorBytes (X.bytes m) (Y.bytes m) ∧ Y.bytes m' = Y.bytes m) ∧
    (Z.len < Y.len ∨ X.len < Y.len → Z.separate X → Z.separate Y →
      ∃ m', XorBytes m Z X Y = .fault m' ∧
        (∀ i, i < min Z.len X.len → ∃ x y, X.get m i = some x ∧ Y.get m i = some y ∧
          Z.get m' i = some (x ^^^ y)) ∧
        (∀ i, min Z.len X.len ≤ i → Z.get m' i = Z.get m i)) ∧
    (¬ supported X.len → GfnDouble m X = .fault m) ∧
    (Z.len < X.len → shiftLeft m Z X = .fault m) ∧
    (X.len < Y.len → RightXor m X Y = .fault (m ++ X.bytes m)) := by
  have hZ' : Z.ptr + Z.len ≤ m.length := by have := hZ.1; have := hZ.2; omega
  have hX' : X.ptr + X.len ≤ m.length := by have := hX.1; have := hX.2; omega
  have hY' : Y.ptr + Y.len ≤ m.length := by have := hY.1; have := hY.2; omega
  refine ⟨?_, ?_, ?_, ?_, ?_⟩
  · intro hlt hsep
    have H : X.ptr ≤ Y.ptr ∨ Y.ptr + Y.len ≤ X.ptr := by
      rcases hsep with h | h
      · exact Or.inl (by omega)
      · exact Or.inr h
    obtain ⟨m', hrun, hl, hframe, hval⟩ :=
      XorBytesMut_loop_fault X Y H hlt Y.len 0 m (by omega) (by omega) hX' hY'
    refine ⟨m', hrun, ?_, ?_⟩
    · apply ext_getD
      · rw [bytes_length X m' (by omega), xorBytes_length, bytes_length X m hX',
          bytes_length Y m hY']
        omega
      · intro k hk
        rw [bytes_length X m' (by omega)] at hk
        have h := hval k (by omega)
        simp only [Nat.add_zero] at h
        rw [bytes_getD X m' k hk, h,
          xorBytes_getD _ _ k (by rw [bytes_length X m hX']; exact hk)
            (by rw [bytes_length Y m hY']; omega),
          bytes_getD X m k hk, bytes_getD Y m k (by omega)]
    · apply bytes_frame Y m m' hl hY'
      intro k hk
      apply hframe
      rcases hsep with h | h
      · exact Or.inr (by omega)
      · exact Or.inl (by omega)
  · intro hlt hZX hZY
    have HX : Z.ptr ≤ X.ptr ∨ X.ptr + X.len ≤ Z.ptr := by
      rcases hZX with h | h
      · exact Or.inl (by omega)
      · exact Or.inr h
    have HY : Z.ptr ≤ Y.ptr ∨ Y.ptr + Y.len ≤ Z.ptr := by
      rcases hZY with h | h
      · exact Or.inl (by omega)
      · exact Or.inr h
    obtain ⟨m', hrun, hl, hframe, hval⟩ :=
      XorBytes_loop_fault Z X Y HX HY (by omega) Y.len 0 m (by omega) (by omega) hZ' hX' hY'
    refine ⟨m', hrun, ?_, ?_⟩
    · intro i hi
      refine ⟨_, _, Slice.get_ok X m i (by omega) hX', Slice.get_ok Y m i (by omega) hY', ?_⟩
      have := hval i (by omega)
      simp only [Nat.add_zero] at this
      rw [Slice.get_ok Z m' i (by omega) (by omega), this]
    · intro i hi
      by_cases hiZ : i < Z.len
      · rw [Slice.get_ok Z m' i hiZ (by omega), Slice.get_ok Z m i hiZ hZ',
          hframe _ (Or.inr (by omega))]
      · simp [Slice.get, hiZ]
  · intro h
    simp only [GfnDouble, poly_none _ h]
  · intro h
    exact shiftLeft_fault m Z X hX' h
  · intro h
    exact RightXor_fault m X Y hX' h

theorem fault_states_witness :
    (Slice.mk 3 1 1).valid [1, 2, 3, 4] ∧ (Slice.mk 0 1 1).valid [1, 2, 3, 4] ∧
    (Slice.mk 1 2 2).valid [1, 2, 3, 4] ∧
    (Slice.mk 0 1 1).len < (Slice.mk 1 2 2).len ∧
    (Slice.mk 0 1 1).separate (Slice.mk 1 2 2) ∧
    ∃ m', XorBytesMut [1, 2, 3, 4] (Slice.mk 0 1 1) (Slice.mk 1 2 2) = .fault m' ∧
      (Slice.mk 0 1 1).bytes m' =
        xorBytes ((Slice.mk 0 1 1).bytes [1, 2, 3, 4]) ((Slice.mk 1 2 2).bytes [1, 2, 3, 4]) ∧
      (Slice.mk 1 2 2).bytes m' = (Slice.mk 1 2 2).bytes [1, 2, 3, 4] :=
  ⟨by decide, by decide, by decide, by decide, by decide,
    (fault_states [1, 2, 3, 4] (Slice.mk 3 1 1) (Slice.mk 0 1 1) (Slice.mk 1 2 2)
      (by decide) (by decide) (by decide)).1 (by decide) (by decide)⟩

/-- C13 (as stated) fails: `XorBytesMut(X, Y)` with `X` the one-byte buffer
`[0x01]` and `Y` the separate two-byte buffer `[0x02, 0x03]` faults at index 1,
after having stored `0x01 XOR 0x02 = 0x03` into `X[0]`; and `XorBytes(Z, X, Y)`
with a one-byte `Z = [0x04]`, `X = [0x01, 0x01]` and `Y = [0x02, 0x03]` faults
after having stored `0x03` into `Z[0]`. -/
theorem xor_fault_not_atomic :
    ((Slice.mk 0 1 1).len < (Slice.mk 1 2 2).len ∧
      XorBytesMut [0x01, 0x02, 0x03] (Slice.mk 0 1 1) (Slice.mk 1 2 2)
        = .fault [0x03, 0x02, 0x03] ∧
      (Slice.mk 0 1 1).bytes [0x03, 0x02, 0x03] ≠ (Slice.mk 0 1 1).bytes [0x01, 0x02, 0x03]) ∧
    ((Slice.mk 0 1 1).len < (Slice.mk 3 2 2).len ∧
      XorBytes [0x04, 0x01, 0x01, 0x02, 0x03] (Slice.mk 0 1 1) (Slice.mk 1 2 2) (Slice.mk 3 2 2)
        = .fault [0x03, 0x01, 0x01, 0x02, 0x03] ∧
      (Slice.mk 0 1 1).bytes [0x03, 0x01, 0x01, 0x02, 0x03]
        ≠ (Slice.mk 0 1 1).bytes [0x04, 0x01, 0x01, 0x02, 0x03]) := by
  decide

/-- C15: `shiftLeft` is aliasing-safe.  Run in place (`dst` and `src` the same
slice `s`) it returns normally and leaves in `s` the same bytes, and returns
the same carry, as a run into a separate buffer `d` of length `len(s)` leaves
in `d`: both are the original contents of `s` shifted left by one bit, so no
byte is read after it has been overwritten. -/
theorem shiftLeft_in_place (m : Mem) (s d : Slice) (hs : s.valid m) (hd : d.valid m)
    (hlen : d.len = s.len) (hsep : d.separate s) :
    ∃ m1 m2 r, shiftLeft m s s = .ok m1 r ∧ shiftLeft m d s = .ok m2 r ∧
      s.bytes m1 = d.bytes m2 ∧ s.bytes m1 = (shl1 (s.bytes m)).1 := by
  have hs' : s.ptr + s.len ≤ m.length := by have := hs.1; have := hs.2; omega
  have hd' : d.ptr + d.len ≤ m.length := by have := hd.1; have := hd.2; omega
  obtain ⟨m1, hrun1, _, _, hb1⟩ := shiftLeft_ok m s s (Or.inl (Nat.le_refl _)) rfl hs' hs'
  have hsep' : s.ptr ≤ d.ptr ∨ d.ptr + d.len ≤ s.ptr := by
    rcases hsep with h | h
    · exact Or.inr h
    · exact Or.inl (by omega)
  obtain ⟨m2, hrun2, _, _, hb2⟩ := shiftLeft_ok m d s hsep' hlen hs' hd'
  exact ⟨m1, m2, _, hrun1, hrun2, by rw [hb1, hb2], hb1⟩

theorem shiftLeft_in_place_witness :
    (Slice.mk 0 2 2).valid [0x81, 0xC0, 0, 0] ∧ (Slice.mk 2 2 2).valid [0x81, 0xC0, 0, 0] ∧
    (Slice.mk 2 2 2).len = (Slice.mk 0 2 2).len ∧ (Slice.mk 2 2 2).separate (Slice.mk 0 2 2) ∧
    ∃ m1 m2 r, shiftLeft [0x81, 0xC0, 0, 0] (Slice.mk 0 2 2) (Slice.mk 0 2 2) = .ok m1 r ∧
      shiftLeft [0x81, 0xC0, 0, 0] (Slice.mk 2 2 2) (Slice.mk 0 2 2) = .ok m2 r ∧
      (Slice.mk 0 2 2).bytes m1 = (Slice.mk 2 2 2).bytes m2 ∧
      (Slice.mk 0 2 2).bytes m1 = (shl1 ((Slice.mk 0 2 2).bytes [0x81, 0xC0, 0, 0])).1 :=
  ⟨by decide, by decide, by decide, by decide,
    shiftLeft_in_place [0x81, 0xC0, 0, 0] (Slice.mk 0 2 2) (Slice.mk 2 2 2)
      (by decide) (by decide) (by decide) (by decide)⟩

theorem XorBytesMut_loop_runs (X Y : Slice) :
    ∀ (n i : Nat) (m : Mem), i + n = Y.len → Y.len ≤ X.len →
      X.ptr + X.len ≤ m.length → Y.ptr + Y.len ≤ m.length →
      ∃ m', XorBytesMut.loop X Y n i m = .ok m' () := by
  intro n
  induction n with
  | zero => intro i m _ _ _ _; exact ⟨m, rfl⟩
  | succ n ih =>
    intro i m hin hYX hX hY
    obtain ⟨m', hrun⟩ :=
      ih (i + 1) (m.set (X.ptr + i) (m.getD (X.ptr + i) 0 ^^^ m.getD (Y.ptr + i) 0))
        (by omega) hYX (by simpa using hX) (by simpa using hY)
    exact ⟨m', by simp only [XorBytesMut.loop, Slice.get_ok X m i (by omega) hX,
      Slice.get_ok Y m i (by omega) hY, Slice.set_ok X m i _ (by omega) hX, hrun]⟩

theorem XorBytesMut_loop_faults (X Y : Slice) (hlt : X.len < Y.len) :
    ∀ (n i : Nat) (m : Mem), i + n = Y.len → i ≤ X.len →
      X.ptr + X.len ≤ m.length → Y.ptr + Y.len ≤ m.length →
      ∃ m', XorBytesMut.loop X Y n i m = .fault m' := by
  intro n
  induction n with
  | zero => intro i m h1 h2; omega
  | succ n ih =>
    intro i m hin hiX hX hY
    by_cases hi : i = X.len
    · exact ⟨m, by simp only [XorBytesMut.loop, Slice.get_none X m i (by omega)]⟩
    · obtain ⟨m', hrun⟩ :=
        ih (i + 1) (m.set (X.ptr + i) (m.getD (X.ptr + i) 0 ^^^ m.getD (Y.ptr + i) 0))
          (by omega) (by omega) (by simpa using hX) (by simpa using hY)
      exact ⟨m', by simp only [XorBytesMut.loop, Slice.get_ok X m i (by omega) hX,
        Slice.get_ok Y m i (by omega) hY, Slice.set_ok X m i _ (by omega) hX, hrun]⟩

theorem XorBytes_loop_runs (Z X Y : Slice) :
    ∀ (n i : Nat) (m : Mem), i + n = Y.len → Y.len ≤ Z.len → Y.len ≤ X.len →
      Z.ptr + Z.len ≤ m.length → X.ptr + X.len ≤ m.length → Y.ptr + Y.len ≤ m.length →
      ∃ m', XorBytes.loop Z X Y n i m = .ok m' () := by
  intro n
  induction n with
  | zero => intro i m _ _ _ _ _ _; exact ⟨m, rfl⟩
  | succ n ih =>
    intro i m hin hYZ hYX hZ hX hY
    obtain ⟨m', hrun⟩ :=
      ih (i + 1) (m.set (Z.ptr + i) (m.getD (X.ptr + i) 0 ^^^ m.getD (Y.ptr + i) 0))
        (by omega) hYZ hYX (by simpa using hZ) (by simpa using hX) (by simpa using hY)
    exact ⟨m', by simp only [XorBytes.loop, Slice.get_ok X m i (by omega) hX,
      Slice.get_ok Y m i (by omega) hY, Slice.set_ok Z m i _ (by omega) hZ, hrun]⟩

theorem XorBytes_loop_faults (Z X Y : Slice) (hlt : min Z.len X.len < Y.len) :
    ∀ (n i : Nat) (m : Mem), i + n = Y.len → i ≤ min Z.len X.len →
      Z.ptr + Z.len ≤ m.length → X.ptr + X.len ≤ m.length → Y.ptr + Y.len ≤ m.length →
      ∃ m', XorBytes.loop Z X Y n i m = .fault m' := by
  intro n
  induction n with
  | zero => intro i m h1 h2; omega
  | succ n ih =>
    intro i m hin hik hZ hX hY
    by_cases hi : i = min Z.len X.len
    · by_cases hxi : i < X.len
      · have hzi : Z.len ≤ i := by omega
        exact ⟨m, by simp only [XorBytes.loop, Slice.get_ok X m i hxi hX,
          Slice.get_ok Y m i (by omega) hY, Slice.set_none Z m i _ hzi]⟩
      · exact ⟨m, by simp only [XorBytes.loop, Slice.get_none X m i (by omega)]⟩
    · obtain ⟨m', hrun⟩ :=
        ih (i + 1) (m.set (Z.ptr + i) (m.getD (X.ptr + i) 0 ^^^ m.getD (Y.ptr + i) 0))
          (by omega) (by omega) (by simpa using hZ) (by simpa using hX) (by simpa using hY)
      exact ⟨m', by simp only [XorBytes.loop, Slice.get_ok X m i (by omega) hX,
        Slice.get_ok Y m i (by omega) hY, Slice.set_ok Z m i _ (by omega) hZ, hrun]⟩

/-- C16: the XOR helpers fault (with an index out of range) exactly when their
length precondition is violated: `XorBytesMut(X, Y)` faults iff
`len(X) < len(Y)`; `XorBytes(Z, X, Y)` faults iff `len(Z) < len(Y)` or
`len(X) < len(Y)`; `RightXor(X, Y)` faults iff `len(X) < len(Y)`.  This holds
whether or not the buffers share storage. -/
theorem xor_fault_iff (m : Mem) (Z X Y : Slice) (hZ : Z.valid m) (hX : X.valid m)
    (hY : Y.valid m) :
    ((∃ m', XorBytesMut m X Y = .fault m') ↔ X.len < Y.len) ∧
    ((∃ m', XorBytes m Z X Y = .fault m') ↔ (Z.len < Y.len ∨ X.len < Y.len)) ∧
    ((∃ m', RightXor m X Y = .fault m') ↔ X.len < Y.len) := by
  have hZ' : Z.ptr + Z.len ≤ m.length := by have := hZ.1; have := hZ.2; omega
  have hX' : X.ptr + X.len ≤ m.length := by have := hX.1; have := hX.2; omega
  have hY' : Y.ptr + Y.len ≤ m.length := by have := hY.1; have := hY.2; omega
  refine ⟨⟨?_, ?_⟩, ⟨?_, ?_⟩, ⟨?_, ?_⟩⟩
  · rintro ⟨m', hf⟩
    by_contra hge
    obtain ⟨m2, hok⟩ := XorBytesMut_loop_runs X Y Y.len 0 m (by omega) (by omega) hX' hY'
    rw [XorBytesMut, hok] at hf
    exact Res.noConfusion hf
  · intro hlt
    exact XorBytesMut_loop_faults X Y hlt Y.len 0 m (by omega) (by omega) hX' hY'
  · rintro ⟨m', hf⟩
    by_contra hge
    obtain ⟨m2, hok⟩ :=
      XorBytes_loop_runs Z X Y Y.len 0 m (by omega) (by omega) (by omega) hZ' hX' hY'
    rw [XorBytes, hok] at hf
    exact Res.noConfusion hf
  · intro hlt
    exact XorBytes_loop_faults Z X Y (by omega) Y.len 0 m (by omega) (by omega) hZ' hX' hY'
  · rintro ⟨m', hf⟩
    by_contra hge
    rw [RightXor_ok m X Y hX' hY' (by omega)] at hf
    exact Res.noConfusion hf
  · intro hlt
    exact ⟨_, RightXor_fault m X Y hX' hlt⟩

theorem xor_fault_iff_witness :
    (Slice.mk 0 2 2).valid [1, 2, 3, 4, 5] ∧ (Slice.mk 0 2 2).valid [1, 2, 3, 4, 5] ∧
    (Slice.mk 1 3 4).valid [1, 2, 3, 4, 5] ∧
    ((∃ m', XorBytesMut [1, 2, 3, 4, 5] (Slice.mk 0 2 2) (Slice.mk 1 3 4) = .fault m') ↔
      (Slice.mk 0 2 2).len < (Slice.mk 1 3 4).len) ∧
    ((∃ m', XorBytes [1, 2, 3, 4, 5] (Slice.mk 0 2 2) (Slice.mk 0 2 2) (Slice.mk 1 3 4)
        = .fault m') ↔
      ((Slice.mk 0 2 2).len < (Slice.mk 1 3 4).len ∨
        (Slice.mk 0 2 2).len < (Slice.mk 1 3 4).len)) ∧
    ((∃ m', RightXor [1, 2, 3, 4, 5] (Slice.mk 0 2 2) (Slice.mk 1 3 4) = .fault m') ↔
      (Slice.mk 0 2 2).len < (Slice.mk 1 3 4).len) :=
  ⟨by decide, by decide, by decide,
    xor_fault_iff [1, 2, 3, 4, 5] (Slice.mk 0 2 2) (Slice.mk 0 2 2) (Slice.mk 1 3 4)
      (by decide) (by decide) (by decide)⟩

theorem xorLow_twice (x y : List Nat) (h : y.length ≤ x.length) :
    xorLow (xorLow x y) y = x := by
  have hl := xorLow_length x y h
  apply ext_getD
  · rw [xorLow_length _ _ (by omega), hl]
  · intro k hk
    rw [xorLow_length _ _ (by omega), hl] at hk
    rw [xorLow_getD _ _ (by omega) k (by omega), xorLow_getD _ _ h k hk, hl]
    by_cases hko : k < x.length - y.length
    · rw [if_pos hko, if_pos hko]
    · rw [if_neg hko, if_neg hko, xor_cancel_right]

/-- C19: `RightXor` is self-inverse in its second argument: for `X`, `Y` with
`len(X) >= len(Y)`, both calls of `RightXor(RightXor(X, Y), Y)` return normally
and the final buffer is byte-for-byte equal to `X`. -/
theorem RightXor_twice (m : Mem) (X Y : Slice) (hX : X.valid m) (hY : Y.valid m)
    (hlen : Y.len ≤ X.len) :
    ∃ m1 R1 m2 R2, RightXor m X Y = .ok m1 R1 ∧ RightXor m1 R1 Y = .ok m2 R2 ∧
      R2.len = X.len ∧ R2.bytes m2 = X.bytes m := by
  have hX' : X.ptr + X.len ≤ m.length := by have := hX.1; have := hX.2; omega
  have hY' : Y.ptr + Y.len ≤ m.length := by have := hY.1; have := hY.2; omega
  have hXl := bytes_length X m hX'
  have hYl := bytes_length Y m hY'
  have hrl : (xorLow (X.bytes m) (Y.bytes m)).length = X.len := by
    rw [xorLow_length _ _ (by omega), hXl]
  have h1 := RightXor_ok m X Y hX' hY' hlen
  have h2 := RightXor_ok (m ++ xorLow (X.bytes m) (Y.bytes m)) ⟨m.length, X.len, X.len⟩ Y
    (by simp [hrl]) (by simp; omega) hlen
  rw [out_bytes _ _ _ hrl, bytes_append_left Y m _ hY',
    xorLow_twice _ _ (by omega)] at h2
  refine ⟨_, _, _, _, h1, h2, rfl, ?_⟩
  exact out_bytes (m ++ xorLow (X.bytes m) (Y.bytes m)) (X.bytes m) X.len hXl

theorem RightXor_twice_witness :
    (Slice.mk 0 3 3).valid [1, 2, 3, 4, 5] ∧ (Slice.mk 1 2 4).valid [1, 2, 3, 4, 5] ∧
    (Slice.mk 1 2 4).len ≤ (Slice.mk 0 3 3).len ∧
    ∃ m1 R1 m2 R2, RightXor [1, 2, 3, 4, 5] (Slice.mk 0 3 3) (Slice.mk 1 2 4) = .ok m1 R1 ∧
      RightXor m1 R1 (Slice.mk 1 2 4) = .ok m2 R2 ∧
      R2.len = (Slice.mk 0 3 3).len ∧
      R2.bytes m2 = (Slice.mk 0 3 3).bytes [1, 2, 3, 4, 5] :=
  ⟨by decide, by decide, by decide,
    RightXor_twice [1, 2, 3, 4, 5] (Slice.mk 0 3 3) (Slice.mk 1 2 4)
      (by decide) (by decide) (by decide)⟩

theorem xor_mod_two (x y : Nat) : (x ^^^ y) % 2 = (x % 2 + y % 2) % 2 := by
  have h := Nat.testBit_xor x y 0
  simp only [Nat.testBit_zero] at h
  rcases Nat.mod_two_eq_zero_or_one x with hx | hx <;>
    rcases Nat.mod_two_eq_zero_or_one y with hy | hy <;>
    rcases Nat.mod_two_eq_zero_or_one (x ^^^ y) with hz | hz <;>
    simp [hx, hy, hz] at h ⊢

theorem fieldPoly_odd (n : Nat) (h : supported n) : fieldPoly n % 2 = 1 := by
  rcases h with h | h | h | h | h <;> subst h <;> decide

theorem naive_inj (la lb p r : List Nat) (hl : la.length = lb.length)
    (ha : ∀ x ∈ la, x < 256) (hb : ∀ x ∈ lb, x < 256)
    (hp : GfnDouble.poly la.length = some p)
    (hna : GfnDouble_naive la = some r) (hnb : GfnDouble_naive lb = some r) : la = lb := by
  obtain ⟨hsup, _, _, _⟩ := poly_facts _ _ hp
  obtain ⟨ra, hna', _, _, hva⟩ := naive_val la p ha hp
  obtain ⟨rb, hnb', _, _, hvb⟩ := naive_val lb p hb (hl ▸ hp)
  rw [hna] at hna'
  rw [hnb] at hnb'
  have ea : ra = r := (Option.some.inj hna').symm
  have eb : rb = r := (Option.some.inj hnb').symm
  rw [ea] at hva
  rw [eb] at hvb
  have hpos : 0 < la.length := by unfold supported at hsup; omega
  have e : (2 : Nat) ^ (8 * la.length) = 256 ^ la.length := by rw [pow_mul]; norm_num
  have hNeven : (256 : Nat) ^ la.length % 2 = 0 := by
    obtain ⟨k, hk⟩ : ∃ k, la.length = k + 1 := ⟨la.length - 1, by omega⟩
    rw [hk, pow_succ]; omega
  have hca : la.getD 0 0 >>> 7 < 2 := by
    have := getD_lt_of_bytes la ha 0
    rw [Nat.shiftRight_eq_div_pow]; omega
  have hcb : lb.getD 0 0 >>> 7 < 2 := by
    have := getD_lt_of_bytes lb hb 0
    rw [Nat.shiftRight_eq_div_pow]; omega
  have h2a := val_shl1 la ha
  have h2b := val_shl1 lb hb
  have hla := val_lt _ (shl1_bytes la ha)
  have hlb := val_lt _ (shl1_bytes lb hb)
  rw [shl1_length] at hla hlb
  rw [shl1_carry] at h2a h2b
  rw [← hl] at hvb h2b hlb
  have hma : (2 * val la) % 2 ^ (8 * la.length) = val (shl1 la).1 := by
    rw [e, h2a, Nat.add_comm, Nat.add_mul_mod_self_right, Nat.mod_eq_of_lt hla]
  have hmb : (2 * val lb) % 2 ^ (8 * la.length) = val (shl1 lb).1 := by
    rw [e, h2b, Nat.add_comm, Nat.add_mul_mod_self_right, Nat.mod_eq_of_lt hlb]
  rw [hma] at hva
  rw [hmb] at hvb
  have hsa : val (shl1 la).1 % 2 = 0 := by
    have : (la.getD 0 0 >>> 7 * 256 ^ la.length) % 2 = 0 := by
      rw [Nat.mul_mod, hNeven]; simp
    omega
  have hsb : val (shl1 lb).1 % 2 = 0 := by
    have : (lb.getD 0 0 >>> 7 * 256 ^ la.length) % 2 = 0 := by
      rw [Nat.mul_mod, hNeven]; simp
    omega
  have hodd := fieldPoly_odd _ hsup
  -- the lowest bit of the result is the carry
  have hbit_a : val r % 2 = la.getD 0 0 >>> 7 := by
    rw [hva, xor_mod_two, hsa]
    by_cases h : la.getD 0 0 >>> 7 = 1
    · rw [if_pos h, hodd, h]
    · have h0 : la.getD 0 0 >>> 7 = 0 := by omega
      rw [if_neg h, h0]
  have hbit_b : val r % 2 = lb.getD 0 0 >>> 7 := by
    rw [hvb, xor_mod_two, hsb]
    by_cases h : lb.getD 0 0 >>> 7 = 1
    · rw [if_pos h, hodd, h]
    · have h0 : lb.getD 0 0 >>> 7 = 0 := by omega
      rw [if_neg h, h0]
  have hc : la.getD 0 0 >>> 7 = lb.getD 0 0 >>> 7 := by rw [← hbit_a, ← hbit_b]
  have hs : val (shl1 la).1 = val (shl1 lb).1 := by
    have h1 := hva
    rw [hvb, ← hc] at h1
    have := congrArg (fun t => t ^^^ (if la.getD 0 0 >>> 7 = 1 then fieldPoly la.length else 0)) h1
    simp only [xor_cancel_right] at this
    exact this.symm
  apply val_inj la lb hl ha hb
  rw [hc, hs] at h2a
  omega

theorem byteStrings_finite (L : Nat) :
    {l : List Nat | l.length = L ∧ ∀ x ∈ l, x < 256}.Finite := by
  apply Set.Finite.subset
    (Set.Finite.image (List.map Fin.val) (List.finite_length_eq (Fin 256) L))
  intro l hl
  refine ⟨l.pmap (fun x h => (⟨x, h⟩ : Fin 256)) hl.2, ?_, ?_⟩
  · simp [hl.1]
  · rw [List.map_pmap]
    simp

theorem naive_surj (L : Nat) (hL : supported L) (r : List Nat) (hrl : r.length = L)
    (hrb : ∀ x ∈ r, x < 256) :
    ∃ c : List Nat, c.length = L ∧ (∀ x ∈ c, x < 256) ∧ GfnDouble_naive c = some r := by
  obtain ⟨p, hp⟩ := poly_some L hL
  have hmaps : Set.MapsTo (fun l => (GfnDouble_naive l).getD [])
      {l : List Nat | l.length = L ∧ ∀ x ∈ l, x < 256}
      {l : List Nat | l.length = L ∧ ∀ x ∈ l, x < 256} := by
    intro l hl
    obtain ⟨r', hn, hl', hb', _⟩ := naive_val l p hl.2 (by rw [hl.1]; exact hp)
    simp only [hn, Option.getD_some]
    exact ⟨hl'.trans hl.1, hb'⟩
  have hinj : Set.InjOn (fun l => (GfnDouble_naive l).getD [])
      {l : List Nat | l.length = L ∧ ∀ x ∈ l, x < 256} := by
    intro la hla lb hlb heq
    obtain ⟨ra, hna, _, _, _⟩ := naive_val la p hla.2 (by rw [hla.1]; exact hp)
    obtain ⟨rb, hnb, _, _, _⟩ := naive_val lb p hlb.2 (by rw [hlb.1]; exact hp)
    simp only [hna, hnb, Option.getD_some] at heq
    subst heq
    exact naive_inj la lb p ra (hla.1.trans hlb.1.symm) hla.2 hlb.2
      (by rw [hla.1]; exact hp) hna hnb
  have hbij := ((byteStrings_finite L).injOn_iff_bijOn_of_mapsTo hmaps).mp hinj
  obtain ⟨c, hc, hcr⟩ := hbij.surjOn ⟨hrl, hrb⟩
  obtain ⟨r', hn, _, _, _⟩ := naive_val c p hc.2 (by rw [hc.1]; exact hp)
  simp only [hn, Option.getD_some] at hcr
  subst hcr
  exact ⟨c, hc.1, hc.2, hn⟩

/-- C18: `GfnDouble` is injective on each supported length: if two inputs of
the same supported length `L` give results with the same bytes, the inputs have
the same bytes.  Doubling is moreover a permutation of the byte strings of
length `L`: every byte string of length `L` is the result for some input. -/
theorem GfnDouble_injective (ma mb : Mem) (a b : Slice) (ha : a.valid ma) (hb : b.valid mb)
    (hab : ∀ x ∈ a.bytes ma, x < 256) (hbb : ∀ x ∈ b.bytes mb, x < 256)
    (hL : supported a.len) (hlb : b.len = a.len)
    (ma' mb' : Mem) (oa ob : Slice)
    (hra : GfnDouble ma a = .ok ma' oa) (hrb : GfnDouble mb b = .ok mb' ob)
    (heq : oa.bytes ma' = ob.bytes mb') :
    a.bytes ma = b.bytes mb ∧
    ∀ r : List Nat, r.length = a.len → (∀ x ∈ r, x < 256) →
      ∃ c : List Nat, c.length = a.len ∧ (∀ x ∈ c, x < 256) ∧
        GfnDouble c (Slice.mk 0 a.len a.len) = .ok (c ++ r) (Slice.mk a.len a.len a.len) := by
  have hsa : a.ptr + a.len ≤ ma.length := by have := ha.1; have := ha.2; omega
  have hsb : b.ptr + b.len ≤ mb.length := by have := hb.1; have := hb.2; omega
  have hla := bytes_length a ma hsa
  have hlB := bytes_length b mb hsb
  obtain ⟨p, hp⟩ := poly_some _ hL
  constructor
  · obtain ⟨ra, hra', hral, _, hna, _⟩ := GfnDouble_bytes ma a ha hab hL
    obtain ⟨rb, hrb', hrbl, _, hnb, _⟩ := GfnDouble_bytes mb b hb hbb (hlb ▸ hL)
    rw [hra] at hra'
    rw [hrb] at hrb'
    injection hra' with h1 h2
    injection hrb' with h3 h4
    subst h1 h2 h3 h4
    rw [out_bytes _ _ _ hral, out_bytes _ _ _ hrbl] at heq
    subst heq
    exact naive_inj _ _ p ra (by omega) hab hbb (by rw [hla]; exact hp) hna hnb
  · intro r hrl hrb'
    obtain ⟨c, hcl, hcb, hn⟩ := naive_surj a.len hL r hrl hrb'
    refine ⟨c, hcl, hcb, ?_⟩
    have hcbytes : (Slice.mk 0 a.len a.len).bytes c = c := by
      simp [Slice.bytes, ← hcl]
    obtain ⟨r', hrun, _, _, hn', _⟩ := GfnDouble_bytes c (Slice.mk 0 a.len a.len)
      ⟨Nat.le_refl _, by simp [hcl]⟩ (by rw [hcbytes]; exact hcb) hL
    rw [hcbytes, hn] at hn'
    rw [← Option.some.inj hn', hcl] at hrun
    exact hrun

theorem GfnDouble_injective_witness :
    (Slice.mk 0 8 8).valid [0x80, 1, 2, 3, 4, 5, 6, 7, 0x80, 1, 2, 3, 4, 5, 6, 7] ∧
    (Slice.mk 8 8 8).valid [0x80, 1, 2, 3, 4, 5, 6, 7, 0x80, 1, 2, 3, 4, 5, 6, 7] ∧
    supported (Slice.mk 0 8 8).len ∧
    GfnDouble [0x80, 1, 2, 3, 4, 5, 6, 7, 0x80, 1, 2, 3, 4, 5, 6, 7] (Slice.mk 0 8 8)
      = .ok [0x80, 1, 2, 3, 4, 5, 6, 7, 0x80, 1, 2, 3, 4, 5, 6, 7, 0, 2, 4, 6, 8, 10, 12, 21]
          (Slice.mk 16 8 8) ∧
    GfnDouble [0x80, 1, 2, 3, 4, 5, 6, 7, 0x80, 1, 2, 3, 4, 5, 6, 7] (Slice.mk 8 8 8)
      = .ok [0x80, 1, 2, 3, 4, 5, 6, 7, 0x80, 1, 2, 3, 4, 5, 6, 7, 0, 2, 4, 6, 8, 10, 12, 21]
          (Slice.mk 16 8 8) ∧
    ((Slice.mk 0 8 8).bytes [0x80, 1, 2, 3, 4, 5, 6, 7, 0x80, 1, 2, 3, 4, 5, 6, 7]
      = (Slice.mk 8 8 8).bytes [0x80, 1, 2, 3, 4, 5, 6, 7, 0x80, 1, 2, 3, 4, 5, 6, 7] ∧
     ∀ r : List Nat, r.length = (Slice.mk 0 8 8).len → (∀ x ∈ r, x < 256) →
      ∃ c : List Nat, c.length = (Slice.mk 0 8 8).len ∧ (∀ x ∈ c, x < 256) ∧
        GfnDouble c (Slice.mk 0 (Slice.mk 0 8 8).len (Slice.mk 0 8 8).len)
          = .ok (c ++ r) (Slice.mk (Slice.mk 0 8 8).len (Slice.mk 0 8 8).len
              (Slice.mk 0 8 8).len)) :=
  ⟨by decide, by decide, by decide, by decide, by decide,
    GfnDouble_injective _ _ (Slice.mk 0 8 8) (Slice.mk 8 8 8) (by decide) (by decide)
      (by decide) (by decide) (by decide) (by decide)
      [0x80, 1, 2, 3, 4, 5, 6, 7, 0x80, 1, 2, 3, 4, 5, 6, 7, 0, 2, 4, 6, 8, 10, 12, 21]
      [0x80, 1, 2, 3, 4, 5, 6, 7, 0x80, 1, 2, 3, 4, 5, 6, 7, 0, 2, 4, 6, 8, 10, 12, 21]
      (Slice.mk 16 8 8) (Slice.mk 16 8 8) (by decide) (by decide) (by decide)⟩

theorem shiftLeft_loopT_fst (dn sn : Buf) (dst src : Slice) :
    ∀ (i : Nat) (m : Mem) (b : Nat),
      (shiftLeft.loopT dn sn dst src i m b).1 = shiftLeft.loop dst src i m b := by
  intro i
  induction i with
  | zero => intro m b; rfl
  | succ i ih =>
    intro m b
    simp only [shiftLeft.loopT, shiftLeft.loop]
    cases src.get m i with
    | none => rfl
    | some x =>
      simp only []
      cases dst.set m i (((x <<< 1) % 256) ||| b) with
      | none => rfl
      | some m1 => exact ih m1 (x >>> 7)

theorem GfnDouble_loopT_fst (shifted : Slice) (off v : Nat) :
    ∀ (ps : List Nat) (i : Nat) (m : Mem),
      (GfnDouble.loopT shifted off v ps i m).1 = GfnDouble.loop shifted off v ps i m := by
  intro ps
  induction ps with
  | nil => intro i m; rfl
  | cons q ps ih =>
    intro i m
    simp only [GfnDouble.loopT, GfnDouble.loop]
    cases shifted.get m (off + i) with
    | none => rfl
    | some x =>
      simp only []
      cases shifted.set m (off + i) (x ^^^ (ConstantTimeSelect v q 0 % 256)) with
      | none => rfl
      | some m1 => exact ih (i + 1) m1

theorem GfnDoubleT_fst (m : Mem) (input : Slice) :
    (GfnDoubleT m input).1 = GfnDouble m input := by
  unfold GfnDoubleT GfnDouble
  cases hp : GfnDouble.poly input.len with
  | none => rfl
  | some p =>
    simp only [make, shiftLeftT, shiftLeft]
    have h1 := shiftLeft_loopT_fst .shifted .input ⟨m.length, input.len, input.len⟩ input
      input.len (m ++ List.replicate input.len 0) 0
    rcases hr : shiftLeft.loopT .shifted .input ⟨m.length, input.len, input.len⟩ input
      input.len (m ++ List.replicate input.len 0) 0 with ⟨r1, t1⟩
    rw [hr] at h1
    simp only at h1
    rw [← h1]
    cases r1 with
    | fault m2 => rfl
    | ok m2 v =>
      simp only []
      have h2 := GfnDouble_loopT_fst ⟨m.length, input.len, input.len⟩
        (input.len - p.length) v p 0 m2
      rcases hr2 : GfnDouble.loopT ⟨m.length, input.len, input.len⟩
        (input.len - p.length) v p 0 m2 with ⟨r2, t2⟩
      rw [hr2] at h2
      simp only at h2
      rw [← h2]
      cases r2 with
      | fault m3 => rfl
      | ok m3 u => rfl

theorem shiftLeft_loopT_snd (dn sn : Buf) (dst src : Slice) :
    ∀ (i : Nat) (m : Mem) (b : Nat), i ≤ src.len → i ≤ dst.len →
      src.ptr + src.len ≤ m.length → dst.ptr + dst.len ≤ m.length →
      (shiftLeft.loopT dn sn dst src i m b).2 = shiftLeft.trace dn sn i := by
  intro i
  induction i with
  | zero => intro m b _ _ _ _; rfl
  | succ i ih =>
    intro m b h1 h2 hs hd
    simp only [shiftLeft.loopT, shiftLeft.trace, Slice.get_ok src m i (by omega) hs,
      Slice.set_ok dst m i _ (by omega) hd]
    rw [ih _ _ (by omega) (by omega) (by simpa using hs) (by simpa using hd)]

theorem GfnDouble_loopT_snd (shifted : Slice) (off v : Nat) :
    ∀ (ps : List Nat) (i : Nat) (m : Mem), off + i + ps.length ≤ shifted.len →
      shifted.ptr + shifted.len ≤ m.length →
      (GfnDouble.loopT shifted off v ps i m).2 = GfnDouble.polyTrace off ps.length i := by
  intro ps
  induction ps with
  | nil => intro i m _ _; rfl
  | cons q ps ih =>
    intro i m hi hm
    have hil : off + i < shifted.len := by simp at hi; omega
    simp only [GfnDouble.loopT, GfnDouble.polyTrace, List.length_cons,
      Slice.get_ok shifted m _ hil hm, Slice.set_ok shifted m _ _ hil hm]
    rw [ih _ _ (by simp at hi; omega) (by simpa using hm)]

theorem GfnDoubleT_snd (m : Mem) (input : Slice) (hs : input.ptr + input.len ≤ m.length) :
    (GfnDoubleT m input).2 = GfnDouble.trace input.len := by
  unfold GfnDoubleT GfnDouble.trace
  cases hp : GfnDouble.poly input.len with
  | none => rfl
  | some p =>
    obtain ⟨_, hpl, _, _⟩ := poly_facts _ _ hp
    obtain ⟨m2, hrun2, hl2, _, _⟩ :=
      shiftLeft_ok (m ++ List.replicate input.len 0) ⟨m.length, input.len, input.len⟩ input
        (Or.inl (by simp; omega)) rfl (by simp; omega) (by simp)
    have hf1 := shiftLeft_loopT_fst .shifted .input ⟨m.length, input.len, input.len⟩ input
      input.len (m ++ List.replicate input.len 0) 0
    have hs1 := shiftLeft_loopT_snd .shifted .input ⟨m.length, input.len, input.len⟩ input
      input.len (m ++ List.replicate input.len 0) 0 (Nat.le_refl _) (Nat.le_refl _)
      (by simp; omega) (by simp)
    rw [shiftLeft] at hrun2
    rw [hrun2] at hf1
    simp only [make, shiftLeftT]
    rcases hr : shiftLeft.loopT .shifted .input ⟨m.length, input.len, input.len⟩ input
      input.len (m ++ List.replicate input.len 0) 0 with ⟨r1, t1⟩
    rw [hr] at hf1 hs1
    simp only at hf1 hs1
    subst hf1 hs1
    simp only []
    obtain ⟨m3, hrun3, _, _, _⟩ :=
      GfnDouble_loop_ok ⟨m.length, input.len, input.len⟩ (input.len - p.length)
        ((input.bytes (m ++ List.replicate input.len 0)).getD 0 0 >>> 7) p 0 m2
        (by simp; omega) (by simp [hl2])
    have hf2 := GfnDouble_loopT_fst ⟨m.length, input.len, input.len⟩ (input.len - p.length)
        ((input.bytes (m ++ List.replicate input.len 0)).getD 0 0 >>> 7) p 0 m2
    have hs2 := GfnDouble_loopT_snd ⟨m.length, input.len, input.len⟩ (input.len - p.length)
        ((input.bytes (m ++ List.replicate input.len 0)).getD 0 0 >>> 7) p 0 m2
        (by simp; omega) (by simp [hl2])
    rw [hrun3] at hf2
    rcases hr2 : GfnDouble.loopT ⟨m.length, input.len, input.len⟩ (input.len - p.length)
        ((input.bytes (m ++ List.replicate input.len 0)).getD 0 0 >>> 7) p 0 m2 with ⟨r2, t2⟩
    rw [hr2] at hf2 hs2
    simp only at hf2 hs2
    subst hf2 hs2
    rfl

/-- C14: `GfnDouble` runs in data-independent time.  The instrumented run
returns what `GfnDouble` returns, and the sequence of loop tests, of the
`switch` arm taken and of buffer indices read and written (in `shiftLeft` and
in the polynomial loop) is a function of `len(input)` alone: any two inputs of
the same length (supported or not), whatever their bytes and wherever they
lie, give the same sequence. -/
theorem GfnDouble_constant_time (m1 m2 : Mem) (in1 in2 : Slice) (h1 : in1.valid m1)
    (h2 : in2.valid m2) (hlen : in2.len = in1.len) :
    (GfnDoubleT m1 in1).1 = GfnDouble m1 in1 ∧ (GfnDoubleT m2 in2).1 = GfnDouble m2 in2 ∧
    (GfnDoubleT m1 in1).2 = (GfnDoubleT m2 in2).2 ∧
    (GfnDoubleT m1 in1).2 = GfnDouble.trace in1.len := by
  have hs1 : in1.ptr + in1.len ≤ m1.length := by have := h1.1; have := h1.2; omega
  have hs2 : in2.ptr + in2.len ≤ m2.length := by have := h2.1; have := h2.2; omega
  refine ⟨GfnDoubleT_fst m1 in1, GfnDoubleT_fst m2 in2, ?_, GfnDoubleT_snd m1 in1 hs1⟩
  rw [GfnDoubleT_snd m1 in1 hs1, GfnDoubleT_snd m2 in2 hs2, hlen]

theorem GfnDouble_constant_time_witness :
    (Slice.mk 0 8 8).valid [0x80, 1, 2, 3, 4, 5, 6, 7] ∧
    (Slice.mk 1 8 9).valid [9, 0x7F, 0xFF, 0, 0, 0, 0, 0, 1, 0] ∧
    supported (Slice.mk 0 8 8).len ∧ (Slice.mk 1 8 9).len = (Slice.mk 0 8 8).len ∧
    (GfnDoubleT [0x80, 1, 2, 3, 4, 5, 6, 7] (Slice.mk 0 8 8)).1
      = GfnDouble [0x80, 1, 2, 3, 4, 5, 6, 7] (Slice.mk 0 8 8) ∧
    (GfnDoubleT [9, 0x7F, 0xFF, 0, 0, 0, 0, 0, 1, 0] (Slice.mk 1 8 9)).1
      = GfnDouble [9, 0x7F, 0xFF, 0, 0, 0, 0, 0, 1, 0] (Slice.mk 1 8 9) ∧
    (GfnDoubleT [0x80, 1, 2, 3, 4, 5, 6, 7] (Slice.mk 0 8 8)).2
      = (GfnDoubleT [9, 0x7F, 0xFF, 0, 0, 0, 0, 0, 1, 0] (Slice.mk 1 8 9)).2 ∧
    (GfnDoubleT [0x80, 1, 2, 3, 4, 5, 6, 7] (Slice.mk 0 8 8)).2
      = GfnDouble.trace (Slice.mk 0 8 8).len :=
  ⟨by decide, by decide, by decide, by decide,
    GfnDouble_constant_time [0x80, 1, 2, 3, 4, 5, 6, 7] [9, 0x7F, 0xFF, 0, 0, 0, 0, 0, 1, 0]
      (Slice.mk 0 8 8) (Slice.mk 1 8 9) (by decide) (by decide) (by decide)⟩

end Byteutil
